import Mathlib

set_option autoImplicit false

/-!
Verification of the msvcup install engine against its specification.

The Rust sources are shallowly embedded: Rust `&str`/`String` values are
modelled as `List Char` (the code only ever indexes and slices at ASCII
boundaries, so byte indices and character indices coincide on all inputs
the theorems quantify over), `u64`/`usize` are `Nat` with explicit
`2 ^ 64` bounds where Rust overflow or parse failure matters, fallible
functions return `Option`/`Except`, and the filesystem is an explicit
association list from paths to file contents threaded through each
state-changing operation.
-/

namespace Msvcup

/-- Rust string slices are modelled as lists of characters. -/
abbrev Str := List Char

/-- Convenience conversion from Lean string literals to the model type. -/
def str (s : String) : Str := s.toList

/-! ## Ordering comparators (src/util.rs) -/

/-- Model of Rust `Ord::cmp` on natural numbers. -/
def natCmp (a b : Nat) : Ordering :=
  if a < b then .lt else if b < a then .gt else .eq

/-- Model of Rust `Ord::cmp` on characters (scalar value order). -/
def charCmp (a b : Char) : Ordering := natCmp a.toNat b.toNat

/-- Lexicographic lift of a comparator to lists; `str::cmp` and the
component walk of `order_dotted_numeric` both have this shape. -/
def lexCmp {α : Type} (cmp : α → α → Ordering) : List α → List α → Ordering
  | [], [] => .eq
  | [], _ :: _ => .lt
  | _ :: _, [] => .gt
  | a :: as, b :: bs =>
    match cmp a b with
    | .eq => lexCmp cmp as bs
    | o => o

/-- The comparator laws needed for the total-preorder claims: swap duality,
transitivity of strict comparison, and substitutivity of `.eq`. -/
structure CmpLaws {α : Type} (cmp : α → α → Ordering) : Prop where
  symm : ∀ a b, (cmp a b).swap = cmp b a
  lt_trans : ∀ a b c, cmp a b = .lt → cmp b c = .lt → cmp a c = .lt
  eq_subst : ∀ a b c, cmp a b = .eq → cmp a c = cmp b c

theorem CmpLaws.refl {α : Type} {cmp : α → α → Ordering} (h : CmpLaws cmp)
    (a : α) : cmp a a = .eq := by
  have hs := h.symm a a
  cases hx : cmp a a <;> rw [hx] at hs <;> simp [Ordering.swap] at hs

theorem CmpLaws.eq_symm {α : Type} {cmp : α → α → Ordering} (h : CmpLaws cmp)
    {a b : α} (hab : cmp a b = .eq) : cmp b a = .eq := by
  have hs := h.symm a b
  rw [hab] at hs
  exact hs.symm

theorem CmpLaws.gt_iff {α : Type} {cmp : α → α → Ordering} (h : CmpLaws cmp)
    (a b : α) : cmp a b = .gt ↔ cmp b a = .lt := by
  have hs := h.symm a b
  constructor
  · intro hx; rw [hx] at hs; exact hs.symm
  · intro hx
    rw [hx] at hs
    cases hy : cmp a b <;> rw [hy] at hs <;> simp [Ordering.swap] at hs <;> rfl

theorem CmpLaws.eq_subst_right {α : Type} {cmp : α → α → Ordering} (h : CmpLaws cmp)
    {b c : α} (a : α) (hbc : cmp b c = .eq) : cmp a c = cmp a b := by
  have h1 : cmp c a = cmp b a := h.eq_subst c b a (h.eq_symm hbc)
  have h4 := congrArg Ordering.swap h1
  rw [h.symm c a, h.symm b a] at h4
  exact h4

theorem natCmp_laws : CmpLaws natCmp := by
  constructor
  · intro a b; unfold natCmp; split_ifs <;> simp [Ordering.swap] <;> omega
  · intro a b c; unfold natCmp; split_ifs <;> simp <;> omega
  · intro a b c hab
    have : a = b := by
      unfold natCmp at hab; split_ifs at hab <;> omega
    rw [this]

theorem natCmp_eq_iff (a b : Nat) : natCmp a b = .eq ↔ a = b := by
  unfold natCmp; split_ifs <;> simp <;> omega

theorem natCmp_lt_iff (a b : Nat) : natCmp a b = .lt ↔ a < b := by
  unfold natCmp; split_ifs <;> simp <;> omega

theorem charCmp_laws : CmpLaws charCmp := by
  constructor
  · intro a b; exact natCmp_laws.symm _ _
  · intro a b c; exact natCmp_laws.lt_trans _ _ _
  · intro a b c; exact natCmp_laws.eq_subst _ _ _

theorem lexCmp_symm {α : Type} {cmp : α → α → Ordering}
    (h : ∀ a b, (cmp a b).swap = cmp b a) :
    ∀ l r, (lexCmp cmp l r).swap = lexCmp cmp r l := by
  intro l
  induction l with
  | nil => intro r; cases r <;> rfl
  | cons a as ih =>
    intro r
    cases r with
    | nil => rfl
    | cons b bs =>
      simp only [lexCmp]
      have hs := h a b
      cases hx : cmp a b <;> rw [hx] at hs <;> rw [← hs] <;>
        simp [Ordering.swap] <;> exact ih bs

theorem lexCmp_lt_trans {α : Type} {cmp : α → α → Ordering} (h : CmpLaws cmp) :
    ∀ l m r, lexCmp cmp l m = .lt → lexCmp cmp m r = .lt → lexCmp cmp l r = .lt := by
  intro l
  induction l with
  | nil =>
    intro m r h1 h2
    cases m with
    | nil => exact h2
    | cons b bs => cases r with
      | nil => simp [lexCmp] at h2
      | cons c cs => rfl
  | cons a as ih =>
    intro m r h1 h2
    cases m with
    | nil => simp [lexCmp] at h1
    | cons b bs =>
      cases r with
      | nil => simp [lexCmp] at h2
      | cons c cs =>
        simp only [lexCmp] at h1 h2 ⊢
        cases hab : cmp a b <;> rw [hab] at h1
        · -- cmp a b = .lt
          cases hbc : cmp b c <;> rw [hbc] at h2
          · rw [h.lt_trans a b c hab hbc]
          · rw [h.eq_subst_right a hbc, hab]
          · simp at h2
        · -- cmp a b = .eq
          cases hbc : cmp b c <;> rw [hbc] at h2
          · rw [h.eq_subst a b c hab, hbc]
          · rw [h.eq_subst a b c hab, hbc]
            exact ih bs cs h1 h2
          · simp at h2
        · simp at h1

theorem lexCmp_eq_subst {α : Type} {cmp : α → α → Ordering} (h : CmpLaws cmp) :
    ∀ l m r, lexCmp cmp l m = .eq → lexCmp cmp l r = lexCmp cmp m r := by
  intro l
  induction l with
  | nil =>
    intro m r h1
    cases m with
    | nil => rfl
    | cons b bs => simp [lexCmp] at h1
  | cons a as ih =>
    intro m r h1
    cases m with
    | nil => simp [lexCmp] at h1
    | cons b bs =>
      simp only [lexCmp] at h1 ⊢
      cases hab : cmp a b <;> rw [hab] at h1 <;> try simp at h1
      cases r with
      | nil => rfl
      | cons c cs =>
        simp only [lexCmp]
        rw [h.eq_subst a b c hab]
        cases hbc : cmp b c
        · rfl
        · exact ih bs cs h1
        · rfl

theorem lexCmp_laws {α : Type} {cmp : α → α → Ordering} (h : CmpLaws cmp) :
    CmpLaws (lexCmp cmp) :=
  ⟨lexCmp_symm h.symm, lexCmp_lt_trans h, lexCmp_eq_subst h⟩

/-! ## Dotted-numeric version ordering (src/util.rs) -/

/-- Model of the `str::split` iterator: splitting on a separator character.
Splitting the empty string yields one empty piece, as in Rust. -/
def splitCh (sep : Char) : Str → List Str
  | [] => [[]]
  | c :: rest =>
    if c = sep then [] :: splitCh sep rest
    else
      match splitCh sep rest with
      | [] => [[c]]
      | p :: ps => (c :: p) :: ps

theorem splitCh_ne_nil (sep : Char) (s : Str) : splitCh sep s ≠ [] := by
  induction s with
  | nil => simp [splitCh]
  | cons c rest ih =>
    simp only [splitCh]
    split
    · simp
    · cases hx : splitCh sep rest <;> simp

/-- Decimal value of a digit string, as accumulated by Rust integer parsing. -/
def decVal (s : Str) : Nat := s.foldl (fun a c => a * 10 + (c.toNat - 48)) 0

/-- Core of Rust `u64::from_str` on the part after an optional sign:
requires a non-empty all-digit string whose value fits in 64 bits. -/
def parseU64core (s : Str) : Option Nat :=
  if s = [] then none
  else if s.all (·.isDigit) then
    if decVal s < 2 ^ 64 then some (decVal s) else none
  else none

/-- Model of `lhs.parse::<u64>()`: Rust unsigned parsing accepts an optional
leading plus sign and fails on overflow. -/
def parseU64 (s : Str) : Option Nat :=
  match s with
  | c :: rest => if c = '+' then parseU64core rest else parseU64core s
  | [] => parseU64core []

/-- Model of `order_numeric` (src/util.rs): numeric comparison when both
sides parse as `u64`, numbers before non-numbers, else string comparison. -/
def order_numeric (lhs rhs : Str) : Ordering :=
  match parseU64 lhs, parseU64 rhs with
  | some l, some r => natCmp l r
  | some _, none => .lt
  | none, some _ => .gt
  | none, none => lexCmp charCmp lhs rhs

/-- Model of `order_dotted_numeric` (src/util.rs): componentwise walk over
the dot-separated pieces, which is exactly the lexicographic lift. -/
def order_dotted_numeric (lhs rhs : Str) : Ordering :=
  lexCmp order_numeric (splitCh '.' lhs) (splitCh '.' rhs)

theorem order_numeric_laws : CmpLaws order_numeric := by
  constructor
  · intro a b
    unfold order_numeric
    cases ha : parseU64 a <;> cases hb : parseU64 b
    · exact (lexCmp_laws charCmp_laws).symm a b
    · rfl
    · rfl
    · exact natCmp_laws.symm _ _
  · intro a b c h1 h2
    unfold order_numeric at h1 h2 ⊢
    cases ha : parseU64 a <;> rw [ha] at h1 <;>
      cases hb : parseU64 b <;> rw [hb] at h1 h2 <;>
      cases hc : parseU64 c <;> rw [hc] at h2 <;>
      simp only [] at h1 h2 ⊢
    · exact (lexCmp_laws charCmp_laws).lt_trans _ _ _ h1 h2
    · cases h2
    · cases h1
    · cases h1
    · cases h2
    · exact natCmp_laws.lt_trans _ _ _ h1 h2
  · intro a b c h1
    unfold order_numeric at h1 ⊢
    cases ha : parseU64 a <;> rw [ha] at h1 <;>
      cases hb : parseU64 b <;> rw [hb] at h1 <;>
      simp only [] at h1 ⊢
    · cases hc : parseU64 c
      · exact (lexCmp_laws charCmp_laws).eq_subst _ _ _ h1
      · rfl
    · cases h1
    · cases h1
    · rw [(natCmp_eq_iff _ _).mp h1]
      cases hc : parseU64 c <;> rfl

theorem order_dotted_numeric_laws : CmpLaws order_dotted_numeric := by
  constructor
  · intro a b; exact (lexCmp_laws order_numeric_laws).symm _ _
  · intro a b c; exact (lexCmp_laws order_numeric_laws).lt_trans _ _ _
  · intro a b c h1
    exact (lexCmp_laws order_numeric_laws).eq_subst _ _ _ h1

/-! ## Package identity (src/packages.rs) -/

/-- The closed package-kind enum, in declaration order. -/
inductive MsvcupPackageKind
  | msvc
  | sdk
  | msbuild
  | diasdk
  | ninja
  | cmake
deriving DecidableEq, Fintype

/-- Declaration-order rank backing the derived Rust `Ord`. -/
def MsvcupPackageKind.rank : MsvcupPackageKind → Nat
  | .msvc => 0
  | .sdk => 1
  | .msbuild => 2
  | .diasdk => 3
  | .ninja => 4
  | .cmake => 5

/-- Model of `MsvcupPackageKind::as_str`. -/
def MsvcupPackageKind.asStr : MsvcupPackageKind → Str
  | .msvc => str ("msvc")
  | .sdk => str ("sdk")
  | .msbuild => str ("msbuild")
  | .diasdk => str ("diasdk")
  | .ninja => str ("ninja")
  | .cmake => str ("cmake")

theorem MsvcupPackageKind.rank_inj :
    ∀ a b : MsvcupPackageKind, a.rank = b.rank → a = b := by decide

/-- Canonical target-package identity: kind plus dotted version text. -/
structure MsvcupPackage where
  kind : MsvcupPackageKind
  version : Str
deriving DecidableEq

/-- Model of `MsvcupPackage::order`: primary key the derived kind order,
secondary key the dotted-numeric version order. -/
def MsvcupPackage.order (lhs rhs : MsvcupPackage) : Ordering :=
  match natCmp lhs.kind.rank rhs.kind.rank with
  | .eq => order_dotted_numeric lhs.version rhs.version
  | o => o

theorem MsvcupPackage.order_laws : CmpLaws MsvcupPackage.order := by
  constructor
  · intro a b
    unfold MsvcupPackage.order
    have hk := natCmp_laws.symm a.kind.rank b.kind.rank
    cases hx : natCmp a.kind.rank b.kind.rank <;> rw [hx] at hk <;> rw [← hk]
    · rfl
    · exact order_dotted_numeric_laws.symm _ _
    · rfl
  · intro a b c h1 h2
    unfold MsvcupPackage.order at h1 h2 ⊢
    cases hab : natCmp a.kind.rank b.kind.rank <;> rw [hab] at h1 <;>
      cases hbc : natCmp b.kind.rank c.kind.rank <;> rw [hbc] at h2 <;>
      simp only [] at h1 h2 ⊢
    · rw [natCmp_laws.lt_trans _ _ _ hab hbc]
    · rw [natCmp_laws.eq_subst_right a.kind.rank hbc, hab]
    · cases h2
    · rw [natCmp_laws.eq_subst _ _ _ hab, hbc]
    · rw [natCmp_laws.eq_subst _ _ _ hab, hbc]
      exact order_dotted_numeric_laws.lt_trans _ _ _ h1 h2
    · cases h2
    · cases h1
    · cases h1
    · cases h1
  · intro a b c h1
    unfold MsvcupPackage.order at h1 ⊢
    cases hab : natCmp a.kind.rank b.kind.rank <;> rw [hab] at h1 <;>
      simp only [] at h1 ⊢
    · cases h1
    · rw [natCmp_laws.eq_subst _ _ _ hab]
      cases hbc : natCmp b.kind.rank c.kind.rank
      · rfl
      · exact order_dotted_numeric_laws.eq_subst _ _ _ h1
      · rfl
    · cases h1

/-- C6 (amended): `MsvcupPackage::order` is a total preorder: it is
reflexive, swap-dual (hence total: exactly one of lt/eq/gt relates any two
packages), transitive on strict comparison, and `.eq` is a substitutive
equivalence; the claimed antisymmetry fails (see the counterexample), since
versions are compared numerically and leading zeros collapse.  The concrete
digit-group orderings 9 < 10, 14.9 < 14.10 and 0 < 0.1 hold. -/
theorem c6_order_total_preorder :
    (∀ p : MsvcupPackage, MsvcupPackage.order p p = .eq) ∧
    (∀ p q : MsvcupPackage,
      (MsvcupPackage.order p q).swap = MsvcupPackage.order q p) ∧
    (∀ p q r : MsvcupPackage, MsvcupPackage.order p q = .lt →
      MsvcupPackage.order q r = .lt → MsvcupPackage.order p r = .lt) ∧
    (∀ p q r : MsvcupPackage, MsvcupPackage.order p q = .eq →
      MsvcupPackage.order p r = MsvcupPackage.order q r) ∧
    order_dotted_numeric (str ("9")) (str ("10")) = .lt ∧
    order_dotted_numeric (str ("14.9")) (str ("14.10")) = .lt ∧
    order_dotted_numeric (str ("0")) (str ("0.1")) = .lt :=
  ⟨MsvcupPackage.order_laws.refl, MsvcupPackage.order_laws.symm,
   MsvcupPackage.order_laws.lt_trans, MsvcupPackage.order_laws.eq_subst,
   by decide, by decide, by decide⟩

/-- C6 witness: the transitivity and duality clauses applied at concrete
packages msvc-14.9 < msvc-14.10 < msvc-15. -/
theorem c6_order_total_preorder_witness :
    MsvcupPackage.order ⟨.msvc, str ("14.9")⟩ ⟨.msvc, str ("14.10")⟩ = .lt ∧
    MsvcupPackage.order ⟨.msvc, str ("14.10")⟩ ⟨.msvc, str ("15")⟩ = .lt ∧
    MsvcupPackage.order ⟨.msvc, str ("14.9")⟩ ⟨.msvc, str ("15")⟩ = .lt :=
  ⟨by decide, by decide,
   c6_order_total_preorder.2.2.1 ⟨.msvc, str ("14.9")⟩ ⟨.msvc, str ("14.10")⟩
     ⟨.msvc, str ("15")⟩ (by decide) (by decide)⟩

/-- C6 counterexample: the claim that `order` returning Equal implies the
packages are equal is false; versions "01" and "1" compare Equal yet the
packages differ. -/
theorem c6_order_not_antisymm :
    MsvcupPackage.order ⟨.msvc, str ("01")⟩ ⟨.msvc, str ("1")⟩ = .eq ∧
    (⟨.msvc, str ("01")⟩ : MsvcupPackage) ≠ ⟨.msvc, str ("1")⟩ := by
  decide

/-! ## Version text validation (src/util.rs, src/packages.rs) -/

/-- The character class consumed by `scan_id_version`: dots and digits. -/
def digitOrDot (c : Char) : Bool := c = '.' || c.isDigit

/-- Model of `scan_id_version` (src/util.rs): scan a maximal run of digits
and dots from `start`, trim trailing dots, and if nothing remains return
the empty slice at `start`. -/
def scan_id_version (s : Str) (start : Nat) : Str × Nat :=
  let seg := (s.drop start).takeWhile digitOrDot
  let trimmed := seg.rdropWhile (fun c => c = '.')
  if trimmed = [] then ([], start) else (trimmed, start + trimmed.length)

/-- Model of `is_valid_version` (src/util.rs). -/
def is_valid_version (v : Str) : Bool :=
  if v = [] then false
  else (scan_id_version v 0).2 == v.length

/-- Model of the pool-string kind recognizer (src/packages.rs): the source
strips each kind text plus a dash in declaration order; the alternatives
are mutually exclusive, so an ordered direct match is the same function. -/
def kindFromPoolStr : Str → Option (MsvcupPackageKind × Str)
  | 'm' :: 's' :: 'v' :: 'c' :: '-' :: rest => some (.msvc, rest)
  | 's' :: 'd' :: 'k' :: '-' :: rest => some (.sdk, rest)
  | 'm' :: 's' :: 'b' :: 'u' :: 'i' :: 'l' :: 'd' :: '-' :: rest => some (.msbuild, rest)
  | 'd' :: 'i' :: 'a' :: 's' :: 'd' :: 'k' :: '-' :: rest => some (.diasdk, rest)
  | 'n' :: 'i' :: 'n' :: 'j' :: 'a' :: '-' :: rest => some (.ninja, rest)
  | 'c' :: 'm' :: 'a' :: 'k' :: 'e' :: '-' :: rest => some (.cmake, rest)
  | _ => none

/-- The two parse failures of `MsvcupPackage::from_string`. -/
inductive MsvcupPackageParseError
  | unknownName
  | invalidVersion (v : Str)
deriving DecidableEq

/-- Model of `MsvcupPackage::from_string` (src/packages.rs). -/
def MsvcupPackage.from_string (s : Str) :
    Except MsvcupPackageParseError MsvcupPackage :=
  match kindFromPoolStr s with
  | none => .error .unknownName
  | some (kind, version) =>
    if is_valid_version version then .ok ⟨kind, version⟩
    else .error (.invalidVersion version)

/-- Model of `MsvcupPackage::pool_string` (Display): kind text, dash,
version text. -/
def MsvcupPackage.pool_string (p : MsvcupPackage) : Str :=
  p.kind.asStr ++ '-' :: p.version

theorem kindFromPoolStr_pool (k : MsvcupPackageKind) (v : Str) :
    kindFromPoolStr (k.asStr ++ '-' :: v) = some (k, v) := by
  cases k <;> rfl

/-- Characterization of `is_valid_version`: the scan accepts exactly the
non-empty digit-and-dot strings whose final character is a digit.  Leading
and doubled dots are accepted. -/
theorem is_valid_version_iff (v : Str) :
    is_valid_version v = true ↔
      v ≠ [] ∧ (∀ c ∈ v, digitOrDot c = true) ∧
      (∃ c, v.getLast? = some c ∧ c.isDigit = true) := by
  unfold is_valid_version scan_id_version
  cases hv0 : v with
  | nil => simp
  | cons c0 rest =>
    rw [← hv0]
    have hvne : v ≠ [] := by rw [hv0]; simp
    simp only [if_neg hvne, List.drop_zero]
    set seg := v.takeWhile digitOrDot with hseg
    set T := seg.rdropWhile (fun c => c = '.') with hT
    have hsegv : seg <+: v := List.takeWhile_prefix _
    have hTs : T <+: seg := List.rdropWhile_prefix _ _
    constructor
    · intro h
      split at h
      · simp only [Nat.beq_eq_true_eq] at h
        exact absurd h.symm (by rw [hv0]; simp)
      · rename_i hTne
        simp only [Nat.beq_eq_true_eq, Nat.zero_add] at h
        have hTv : T <+: v := hTs.trans hsegv
        have hTeq : T = v := hTv.eq_of_length h
        have hsegeq : seg = v := by
          have h1 : seg.length ≤ v.length := hsegv.length_le
          have h2 : v.length ≤ seg.length := by
            conv_lhs => rw [← hTeq]
            exact hTs.length_le
          exact hsegv.eq_of_length (Nat.le_antisymm h1 h2)
        refine ⟨hvne, ?_, ?_⟩
        · intro c hc
          rw [← hsegeq] at hc
          rw [hseg] at hc
          exact List.mem_takeWhile_imp hc
        · have hself : v.rdropWhile (fun c => c = '.') = v := by
            conv_lhs => rw [← hsegeq]
            rw [← hT, hTeq]
          have hlastnot := List.rdropWhile_eq_self_iff.mp hself hvne
          refine ⟨v.getLast hvne, List.getLast?_eq_getLast v hvne, ?_⟩
          have hmem : v.getLast hvne ∈ v := List.getLast_mem hvne
          have hkey : List.takeWhile digitOrDot v = v := by rw [← hseg]; exact hsegeq
          simp only [decide_eq_true_eq] at hlastnot
          generalize hx : v.getLast hvne = x at hmem hlastnot
          have hdd : digitOrDot x = true := by
            rw [← hkey] at hmem
            exact List.mem_takeWhile_imp hmem
          simp only [digitOrDot, Bool.or_eq_true, decide_eq_true_eq] at hdd
          rcases hdd with h1 | h1
          · exact absurd h1 hlastnot
          · exact h1
    · rintro ⟨_, hall, c, hlast, hdig⟩
      have hsegeq : seg = v := by
        rw [hseg]
        exact List.takeWhile_eq_self_iff.mpr hall
      have hself : v.rdropWhile (fun c => c = '.') = v := by
        rw [List.rdropWhile_eq_self_iff]
        intro hl
        have : v.getLast? = some (v.getLast hl) := List.getLast?_eq_getLast v hl
        rw [hlast] at this
        have hc : v.getLast hl = c := (Option.some_inj.mp this).symm
        rw [hc]
        simp only [decide_eq_true_eq]
        intro hx
        rw [hx] at hdig
        simp [Char.isDigit] at hdig
      have hTeq : T = v := by rw [hT, hsegeq, hself]
      rw [hTeq]
      simp [hvne]

/-- Spec-side form of a version made of digit groups separated by single
dots, following the claim wording. -/
def joinDots : List Str → Str
  | [] => []
  | [g] => g
  | g :: rest => g ++ '.' :: joinDots rest

theorem joinDots_ne_nil (g : Str) (gs : List Str) (hg : g ≠ []) :
    joinDots (g :: gs) ≠ [] := by
  cases gs with
  | nil => simpa [joinDots] using hg
  | cons h t => simp [joinDots]

theorem joinDots_all_digitOrDot :
    ∀ gs : List Str, (∀ g ∈ gs, ∀ c ∈ g, c.isDigit = true) →
    ∀ c ∈ joinDots gs, digitOrDot c = true := by
  intro gs
  induction gs with
  | nil => intro _ c hc; cases hc
  | cons g rest ih =>
    intro hall c hc
    cases rest with
    | nil =>
      simp only [joinDots] at hc
      simp [digitOrDot, hall g (by simp) c hc]
    | cons h t =>
      simp only [joinDots, List.mem_append, List.mem_cons] at hc
      rcases hc with hc | hc | hc
      · simp [digitOrDot, hall g (by simp) c hc]
      · simp [digitOrDot, hc]
      · exact ih (fun g hg => hall g (by simp [hg])) c hc

theorem joinDots_last_digit :
    ∀ gs : List Str, gs ≠ [] → (∀ g ∈ gs, g ≠ [] ∧ ∀ c ∈ g, c.isDigit = true) →
    ∃ c, (joinDots gs).getLast? = some c ∧ c.isDigit = true := by
  intro gs
  induction gs with
  | nil => intro h; cases h rfl
  | cons g rest ih =>
    intro _ hall
    cases rest with
    | nil =>
      obtain ⟨hg, hdig⟩ := hall g (by simp)
      refine ⟨(joinDots [g]).getLast hg, List.getLast?_eq_getLast _ _, ?_⟩
      exact hdig _ (List.getLast_mem hg)
    | cons h t =>
      obtain ⟨c, hc1, hc2⟩ := ih (by simp) (fun g hg => hall g (by simp [hg]))
      refine ⟨c, ?_, hc2⟩
      have hne : joinDots (h :: t) ≠ [] := joinDots_ne_nil h t (hall h (by simp)).1
      have h1 : joinDots (g :: h :: t) = g ++ '.' :: joinDots (h :: t) := rfl
      rw [h1, List.getLast?_append_of_ne_nil _ (by simp)]
      have h2 : ('.' :: joinDots (h :: t)) = ['.'] ++ joinDots (h :: t) := rfl
      rw [h2, List.getLast?_append_of_ne_nil _ hne]
      exact hc1

/-- C7 (amended): parsing a pool string `<kind>-<version>` validates the
version with `is_valid_version`, which accepts exactly the non-empty
digit-and-dot strings ending in a digit.  Empty versions, trailing dots and
dot-only strings are rejected with `InvalidVersion`; every non-empty
sequence of non-empty digit groups separated by single dots is accepted;
but, contrary to the claim, leading and doubled dots are also accepted
(see the counterexample). -/
theorem c7_from_string_version_validation :
    (∀ (k : MsvcupPackageKind) (v : Str),
      MsvcupPackage.from_string (k.asStr ++ '-' :: v) =
        if is_valid_version v then .ok ⟨k, v⟩
        else .error (.invalidVersion v)) ∧
    (∀ v : Str, is_valid_version v = true ↔
      v ≠ [] ∧ (∀ c ∈ v, digitOrDot c = true) ∧
      (∃ c, v.getLast? = some c ∧ c.isDigit = true)) ∧
    (∀ (k : MsvcupPackageKind) (gs : List Str), gs ≠ [] →
      (∀ g ∈ gs, g ≠ [] ∧ ∀ c ∈ g, c.isDigit = true) →
      MsvcupPackage.from_string (k.asStr ++ '-' :: joinDots gs) =
        .ok ⟨k, joinDots gs⟩) := by
  refine ⟨?_, is_valid_version_iff, ?_⟩
  · intro k v
    unfold MsvcupPackage.from_string
    rw [kindFromPoolStr_pool]
  · intro k gs hne hall
    unfold MsvcupPackage.from_string
    rw [kindFromPoolStr_pool]
    have hvalid : is_valid_version (joinDots gs) = true := by
      rw [is_valid_version_iff]
      obtain ⟨g, rest, rfl⟩ := List.exists_cons_of_ne_nil hne
      exact ⟨joinDots_ne_nil g rest (hall g (by simp)).1,
        joinDots_all_digitOrDot _ (fun g hg => (hall g hg).2),
        joinDots_last_digit _ (by simp) hall⟩
    simp only []
    rw [hvalid]
    simp

/-- C7 witness: parsing sdk-10.0.22000 through the digit-group clause. -/
theorem c7_from_string_version_validation_witness :
    MsvcupPackage.from_string (str ("sdk-10.0.22000")) =
      .ok ⟨.sdk, str ("10.0.22000")⟩ := by
  have h := c7_from_string_version_validation.2.2 MsvcupPackageKind.sdk
    [str ("10"), str ("0"), str ("22000")] (by decide) (by decide)
  exact h

/-- C7 counterexample: the claim says a leading dot or a doubled dot is
rejected with InvalidVersion, but the scanner accepts both. -/
theorem c7_leading_dot_accepted :
    MsvcupPackage.from_string (str ("msvc-.5")) = .ok ⟨.msvc, str (".5")⟩ ∧
    MsvcupPackage.from_string (str ("msvc-1..2")) =
      .ok ⟨.msvc, str ("1..2")⟩ := by
  constructor <;> rfl

/-! ## String scanning primitives shared by the codec -/

/-- Starts-with test: `begins s pat` is true when `s` starts with `pat`. -/
def begins : Str → Str → Bool
  | _, [] => true
  | [], _ :: _ => false
  | a :: s, b :: p => a = b && begins s p

theorem begins_iff (s pat : Str) : begins s pat = true ↔ pat <+: s := by
  induction pat generalizing s with
  | nil => simp [begins]
  | cons b p ih =>
    cases s with
    | nil => simp [begins]
    | cons a t =>
      simp only [begins, Bool.and_eq_true, decide_eq_true_eq, List.cons_prefix_cons]
      constructor
      · rintro ⟨rfl, h⟩; exact ⟨rfl, (ih t).mp h⟩
      · rintro ⟨rfl, h⟩; exact ⟨rfl, (ih t).mpr h⟩

/-- Model of Rust `str::find` for a substring pattern: the least index at
which the pattern occurs in the haystack. -/
def findSub (pat : Str) : Str → Option Nat
  | [] => if begins [] pat then some 0 else none
  | c :: t => if begins (c :: t) pat then some 0 else (findSub pat t).map (· + 1)

/-- Model of Rust `str::rfind` for a single character. -/
def rfindIdx (c : Char) : Str → Option Nat
  | [] => none
  | a :: t =>
    match rfindIdx c t with
    | some i => some (i + 1)
    | none => if a = c then some 0 else none

/-- Model of Rust `str::ends_with`. -/
def endsWith (s pat : Str) : Bool := begins s.reverse pat.reverse

/-- Model of `u8::to_ascii_lowercase` on a character. -/
def asciiLower (c : Char) : Char :=
  if 'A' ≤ c && c ≤ 'Z' then Char.ofNat (c.toNat + 32) else c

/-- Model of `str::to_ascii_lowercase`. -/
def lowerStr (s : Str) : Str := s.map asciiLower

/-- Rust byte-index slicing `s[a..b]`. -/
def sliceStr (s : Str) (a b : Nat) : Str := (s.drop a).take (b - a)

/-- Model of `basename_from_url` (src/util.rs): text after the last slash. -/
def basename_from_url (url : Str) : Str :=
  match rfindIdx '/' url with
  | some i => url.drop (i + 1)
  | none => url

theorem findSub_bound (pat : Str) :
    ∀ (hay : Str) (i : Nat), findSub pat hay = some i →
      i + pat.length ≤ hay.length ∧ (hay.drop i).take pat.length = pat := by
  intro hay
  induction hay with
  | nil =>
    intro i h
    simp only [findSub] at h
    split at h
    · rename_i hb
      cases h
      have h0 := (begins_iff [] pat).mp hb
      have hpat : pat = [] := List.prefix_nil.mp h0
      subst hpat
      exact ⟨Nat.le_refl _, rfl⟩
    · cases h
  | cons c t ih =>
    intro i h
    simp only [findSub] at h
    split at h
    · rename_i hb
      cases h
      have hpre := (begins_iff (c :: t) pat).mp hb
      refine ⟨by simpa using hpre.length_le, ?_⟩
      simp only [List.drop_zero]
      exact (List.prefix_iff_eq_take.mp hpre).symm
    · cases hrec : findSub pat t with
      | none => rw [hrec] at h; cases h
      | some j =>
        rw [hrec] at h
        simp only [Option.map_some'] at h
        cases h
        obtain ⟨h1, h2⟩ := ih j hrec
        refine ⟨by simpa [Nat.add_right_comm] using Nat.add_le_add_right h1 1, ?_⟩
        simpa using h2

theorem findSub_char_here (c : Char) (a b : Str) (h : c ∉ a) :
    findSub [c] (a ++ c :: b) = some a.length := by
  induction a with
  | nil =>
    simp only [List.nil_append, findSub]
    have : begins (c :: b) [c] = true := by simp [begins]
    simp [this]
  | cons x t ih =>
    have hx : x ≠ c := by intro hxe; exact h (by simp [hxe])
    have ht : c ∉ t := fun hm => h (by simp [hm])
    simp only [List.cons_append, findSub, List.append_eq]
    have hb : begins (x :: (t ++ c :: b)) [c] = false := by
      simp [begins, hx]
    rw [hb]
    simp [ih ht]

theorem findSub_char_none (c : Char) :
    ∀ s : Str, c ∉ s → findSub [c] s = none := by
  intro s
  induction s with
  | nil => intro _; simp [findSub, begins]
  | cons x t ih =>
    intro h
    have hx : x ≠ c := by intro hxe; exact h (by simp [hxe])
    simp only [findSub]
    have : begins (x :: t) [c] = false := by simp [begins, hx]
    rw [this]
    simp [ih (fun hm => h (by simp [hm]))]

/-! ## Sha256 hex codec (src/sha.rs) -/

/-- A Sha256 value is its byte array. -/
abbrev Sha256 := List Nat

/-- Well-formedness of a Sha256 value: 32 bytes. -/
def Sha256WF (s : Sha256) : Prop := s.length = 32 ∧ ∀ b ∈ s, b < 256

/-- Model of `nibble_from_hex` (src/sha.rs). -/
def nibbleFromHex (c : Char) : Option Nat :=
  if '0' ≤ c && c ≤ '9' then some (c.toNat - 48)
  else if 'a' ≤ c && c ≤ 'f' then some (c.toNat - 87)
  else if 'A' ≤ c && c ≤ 'F' then some (c.toNat - 55)
  else none

/-- The pairwise nibble walk of `Sha256::parse_hex`. -/
def parseHexPairs : Str → Option (List Nat)
  | [] => some []
  | hi :: lo :: rest =>
    match nibbleFromHex hi, nibbleFromHex lo with
    | some h, some l =>
      match parseHexPairs rest with
      | some bs => some ((h * 16 + l) :: bs)
      | none => none
    | _, _ => none
  | [_] => none

/-- Model of `Sha256::parse_hex` (src/sha.rs): exactly 64 hex characters. -/
def sha256_parse_hex (hex : Str) : Option Sha256 :=
  if hex.length = 64 then parseHexPairs hex else none

/-- Lowercase hex digit for a nibble, as produced by `hex::encode` and the
`Display` impl of `Sha256`. -/
def hexCharL (n : Nat) : Char :=
  if n < 10 then Char.ofNat (48 + n) else Char.ofNat (87 + n)

/-- Model of `Sha256::to_hex` / `Display`: lowercase hex of the bytes. -/
def sha256_to_hex : Sha256 → Str
  | [] => []
  | b :: rest => hexCharL (b / 16) :: hexCharL (b % 16) :: sha256_to_hex rest

theorem sha256_to_hex_length : ∀ s : Sha256, (sha256_to_hex s).length = 2 * s.length := by
  intro s
  induction s with
  | nil => rfl
  | cons b rest ih => simp [sha256_to_hex, ih]; omega

theorem nibbleFromHex_hexCharL : ∀ n < 16, nibbleFromHex (hexCharL n) = some n := by
  decide

theorem asciiLower_hexCharL : ∀ n < 16, asciiLower (hexCharL n) = hexCharL n := by
  decide

theorem hexCharL_ne : ∀ n < 16,
    hexCharL n ≠ ' ' ∧ hexCharL n ≠ '|' ∧ hexCharL n ≠ '\n' := by
  decide

theorem mem_sha256_to_hex {c : Char} :
    ∀ {s : Sha256}, (∀ b ∈ s, b < 256) → c ∈ sha256_to_hex s →
      ∃ n, n < 16 ∧ c = hexCharL n := by
  intro s
  induction s with
  | nil => intro _ hc; cases hc
  | cons b rest ih =>
    intro hwf hc
    have hb : b < 256 := hwf b (by simp)
    simp only [sha256_to_hex, List.mem_cons] at hc
    rcases hc with rfl | rfl | hc
    · exact ⟨b / 16, by omega, rfl⟩
    · exact ⟨b % 16, by omega, rfl⟩
    · exact ih (fun x hx => hwf x (by simp [hx])) hc

theorem parseHexPairs_to_hex :
    ∀ s : Sha256, (∀ b ∈ s, b < 256) → parseHexPairs (sha256_to_hex s) = some s := by
  intro s
  induction s with
  | nil => intro _; rfl
  | cons b rest ih =>
    intro hwf
    have hb : b < 256 := hwf b (by simp)
    simp only [sha256_to_hex, parseHexPairs]
    rw [nibbleFromHex_hexCharL (b / 16) (by omega),
        nibbleFromHex_hexCharL (b % 16) (by omega),
        ih (fun x hx => hwf x (by simp [hx]))]
    show some ((b / 16 * 16 + b % 16) :: rest) = some (b :: rest)
    have : b / 16 * 16 + b % 16 = b := by omega
    rw [this]

theorem lowerStr_to_hex (s : Sha256) (hwf : ∀ b ∈ s, b < 256) :
    lowerStr (sha256_to_hex s) = sha256_to_hex s := by
  unfold lowerStr
  have hfix : ∀ c ∈ sha256_to_hex s, asciiLower c = id c := by
    intro c hc
    obtain ⟨n, hn, rfl⟩ := mem_sha256_to_hex hwf hc
    exact asciiLower_hexCharL n hn
  rw [List.map_congr_left hfix, List.map_id]

theorem sha256_parse_to_hex (s : Sha256) (hwf : Sha256WF s) :
    sha256_parse_hex (sha256_to_hex s) = some s := by
  unfold sha256_parse_hex
  rw [sha256_to_hex_length, hwf.1]
  simp [parseHexPairs_to_hex s hwf.2]

/-! ## Decimal printing of indices -/

/-- Model of `format!` for an unsigned integer: decimal digits. -/
def natDec (n : Nat) : Str :=
  if h : n < 10 then [Char.ofNat (48 + n)]
  else natDec (n / 10) ++ [Char.ofNat (48 + n % 10)]
decreasing_by exact Nat.div_lt_self (by omega) (by omega)

theorem digit_char_isDigit : ∀ k < 10, (Char.ofNat (48 + k)).isDigit = true := by
  decide

theorem digit_char_toNat : ∀ k < 10, (Char.ofNat (48 + k)).toNat = 48 + k := by
  decide

theorem digit_char_props : ∀ k < 10,
    (Char.ofNat (48 + k)) ≠ ' ' ∧ (Char.ofNat (48 + k)) ≠ '|' ∧
    (Char.ofNat (48 + k)) ≠ '+' ∧ (Char.ofNat (48 + k)) ≠ '\n' := by
  decide

theorem natDec_ne_nil (n : Nat) : natDec n ≠ [] := by
  unfold natDec
  split <;> simp

theorem natDec_all_digits (n : Nat) : ∀ c ∈ natDec n, c.isDigit = true := by
  induction n using Nat.strong_induction_on with
  | _ n ih =>
    unfold natDec
    split
    · rename_i h
      intro c hc
      simp only [List.mem_singleton] at hc
      subst hc
      exact digit_char_isDigit n h
    · rename_i h
      intro c hc
      simp only [List.mem_append, List.mem_singleton] at hc
      rcases hc with hc | rfl
      · exact ih (n / 10) (Nat.div_lt_self (by omega) (by omega)) c hc
      · exact digit_char_isDigit (n % 10) (by omega)

theorem natDec_no_specials (n : Nat) :
    ∀ c ∈ natDec n, c ≠ ' ' ∧ c ≠ '|' ∧ c ≠ '+' ∧ c ≠ '\n' := by
  induction n using Nat.strong_induction_on with
  | _ n ih =>
    unfold natDec
    split
    · rename_i h
      intro c hc
      simp only [List.mem_singleton] at hc
      subst hc
      exact digit_char_props n h
    · rename_i h
      intro c hc
      simp only [List.mem_append, List.mem_singleton] at hc
      rcases hc with hc | rfl
      · exact ih (n / 10) (Nat.div_lt_self (by omega) (by omega)) c hc
      · exact digit_char_props (n % 10) (by omega)

theorem decVal_append_digit (s : Str) (d : Char) :
    decVal (s ++ [d]) = decVal s * 10 + (d.toNat - 48) := by
  unfold decVal
  rw [List.foldl_append]
  rfl

theorem decVal_natDec (n : Nat) : decVal (natDec n) = n := by
  induction n using Nat.strong_induction_on with
  | _ n ih =>
    unfold natDec
    split
    · rename_i h
      show decVal [Char.ofNat (48 + n)] = n
      unfold decVal
      simp [digit_char_toNat n h]
    · rename_i h
      rw [decVal_append_digit, ih (n / 10) (Nat.div_lt_self (by omega) (by omega)),
          digit_char_toNat (n % 10) (by omega)]
      omega

theorem natDec_length_le : ∀ (k : Nat), 1 ≤ k → ∀ n < 10 ^ k, (natDec n).length ≤ k := by
  intro k
  induction k with
  | zero => intro h; omega
  | succ k ih =>
    intro _ n hn
    unfold natDec
    split
    · simp
    · rename_i h
      have hk : 1 ≤ k := by
        by_contra hk0
        have : k = 0 := by omega
        subst this
        simp at hn
        omega
      have hd : n / 10 < 10 ^ k := by
        rw [pow_succ] at hn
        omega
      have := ih hk (n / 10) hd
      simp only [List.length_append, List.length_singleton]
      omega

theorem parseU64_natDec (n : Nat) (h : n < 2 ^ 64) : parseU64 (natDec n) = some n := by
  have hne := natDec_ne_nil n
  obtain ⟨c, t, hct⟩ := List.exists_cons_of_ne_nil hne
  have hcd : c ≠ '+' := by
    have := (natDec_no_specials n c (by rw [hct]; simp)).2.2.1
    exact this
  unfold parseU64
  rw [hct]
  show (if c = '+' then parseU64core t else parseU64core (c :: t)) = some n
  rw [if_neg hcd, ← hct]
  unfold parseU64core
  rw [if_neg hne]
  have hall : (natDec n).all (·.isDigit) = true := by
    rw [List.all_eq_true]
    exact natDec_all_digits n
  rw [if_pos hall, decVal_natDec]
  simp only [if_pos (show n < 2 ^ 64 from h)]

theorem natDec_length_ne_64 (n : Nat) (h : n < 2 ^ 64) : (natDec n).length ≠ 64 := by
  have h20 : n < 10 ^ 20 := by
    have : (2 : Nat) ^ 64 < 10 ^ 20 := by norm_num
    omega
  have := natDec_length_le 20 (by omega) n h20
  omega

/-! ## Lock file codec (src/lockfile_parse.rs, src/packages.rs) -/

/-- The four payload kinds recognized from a URL file extension. -/
inductive LockFileUrlKind
  | vsix
  | msi
  | cab
  | zip
deriving DecidableEq

/-- Model of `get_lock_file_url_kind` (src/packages.rs). -/
def get_lock_file_url_kind (url : Str) : Option LockFileUrlKind :=
  if endsWith url (str (".vsix")) then some .vsix
  else if endsWith url (str (".msi")) then some .msi
  else if endsWith url (str (".cab")) then some .cab
  else if endsWith url (str (".zip")) then some .zip
  else none

/-- A parsed lock-file entry is either a TopLevel payload with its target
package, or a Cab payload with its archive-relative path. -/
inductive LockFilePayloadKind
  | topLevel (pkg : MsvcupPackage)
  | cab (path : Str)
deriving DecidableEq

/-- Model of `LockFilePayload` (src/lockfile_parse.rs). -/
structure LockFilePayload where
  url_decoded : Str
  sha256 : Sha256
  url_kind : LockFilePayloadKind
deriving DecidableEq

/-- The distinct parse failures of `parse_lock_file_payload`; the Rust
function formats them into anyhow messages with file/line context. -/
inductive LockParseErr
  | noFirstSep
  | badPkg (e : MsvcupPackageParseError)
  | noSecondSep
  | unknownUrlKind
  | badHashSpec
  | hashIndexOob
  | badSha
  | missingPkg
  | cabWithPkg
  | cabMissingPath
deriving DecidableEq

/-- Model of `parse_lock_file_payload` (src/lockfile_parse.rs): split at the
first two pipe separators, derive the payload kind from the URL extension,
read the hash field either as 64 hex characters or as a decimal byte offset
into the URL, then require a target package exactly for non-cab payloads and
a trailing path for cab payloads. -/
def parse_lock_file_payload (line : Str) : Except LockParseErr LockFilePayload :=
  match findSub ['|'] line with
  | none => .error .noFirstSep
  | some pkgEnd =>
    let pkgStr := sliceStr line 0 pkgEnd
    let maybePkgE : Except LockParseErr (Option MsvcupPackage) :=
      if pkgStr = [] then .ok none
      else
        match MsvcupPackage.from_string pkgStr with
        | .ok p => .ok (some p)
        | .error e => .error (.badPkg e)
    match maybePkgE with
    | .error e => .error e
    | .ok maybePkg =>
      let urlStart := pkgEnd + 1
      match findSub ['|'] (line.drop urlStart) with
      | none => .error .noSecondSep
      | some rel =>
        let urlEnd := urlStart + rel
        let url := sliceStr line urlStart urlEnd
        match get_lock_file_url_kind url with
        | none => .error .unknownUrlKind
        | some urlKind =>
          let hashStart := urlEnd + 1
          let hashEnd :=
            match findSub [' '] (line.drop hashStart) with
            | some i => hashStart + i
            | none => line.length
          let hashSpec := sliceStr line hashStart hashEnd
          let shaHexE : Except LockParseErr Str :=
            if hashSpec.length = 64 then .ok (lowerStr hashSpec)
            else
              match parseU64 hashSpec with
              | none => .error .badHashSpec
              | some hashIndex =>
                if url.length < hashIndex + 64 then .error .hashIndexOob
                else .ok (lowerStr (sliceStr url hashIndex (hashIndex + 64)))
          match shaHexE with
          | .error e => .error e
          | .ok shaHex =>
            match sha256_parse_hex shaHex with
            | none => .error .badSha
            | some sha =>
              match urlKind with
              | .vsix | .msi | .zip =>
                match maybePkg with
                | none => .error .missingPkg
                | some pkg => .ok ⟨url, sha, .topLevel pkg⟩
              | .cab =>
                match maybePkg with
                | some _ => .error .cabWithPkg
                | none =>
                  if hashEnd < line.length then
                    .ok ⟨url, sha, .cab (line.drop hashEnd)⟩
                  else .error .cabMissingPath

/-- Basename after the last backslash, used by `write_payload` for the
display name of cab files. -/
def cabDisplayName (file_name : Str) : Str :=
  match rfindIdx '\\' file_name with
  | some i => file_name.drop (i + 1)
  | none => file_name

/-- Model of `write_payload` (src/lockfile_parse.rs), producing the line
without the trailing newline that `writeln!` appends (the line-oriented
reader strips it).  Offset encoding is used whenever the lowercase hash hex
occurs in the lowercased URL. -/
def write_payload (maybe_target : Option MsvcupPackage) (url_kind : LockFileUrlKind)
    (url : Str) (sha256 : Sha256) (file_name : Str) : Str :=
  let targetStr : Str :=
    match maybe_target with
    | some t => t.pool_string
    | none => []
  let shaHex := sha256_to_hex sha256
  let sp : Str :=
    match url_kind with
    | .vsix | .msi | .zip => []
    | .cab => [' ']
  let outName : Str :=
    match url_kind with
    | .vsix | .msi | .zip => []
    | .cab => file_name
  match findSub shaHex (lowerStr url) with
  | some hashIndex =>
    targetStr ++ '|' :: (url ++ '|' :: (natDec hashIndex ++ sp ++ outName))
  | none =>
    let displayName : Str :=
      match url_kind with
      | .cab => cabDisplayName file_name
      | _ => []
    targetStr ++ '|' :: (url ++ '|' :: (shaHex ++ sp ++ displayName))

/-- The stage of `parse_lock_file_payload` after both pipe splits, expressed
relative to the text following the second pipe.  `parse_split` proves that
the parser reduces to this on well-shaped lines. -/
def parseHashStage (maybePkg : Option MsvcupPackage) (urlKind : LockFileUrlKind)
    (url tail : Str) : Except LockParseErr LockFilePayload :=
  let relEnd :=
    match findSub [' '] tail with
    | some i => i
    | none => tail.length
  let hashSpec := tail.take relEnd
  let shaHexE : Except LockParseErr Str :=
    if hashSpec.length = 64 then .ok (lowerStr hashSpec)
    else
      match parseU64 hashSpec with
      | none => .error .badHashSpec
      | some hashIndex =>
        if url.length < hashIndex + 64 then .error .hashIndexOob
        else .ok (lowerStr (sliceStr url hashIndex (hashIndex + 64)))
  match shaHexE with
  | .error e => .error e
  | .ok shaHex =>
    match sha256_parse_hex shaHex with
    | none => .error .badSha
    | some sha =>
      match urlKind with
      | .vsix | .msi | .zip =>
        match maybePkg with
        | none => .error .missingPkg
        | some pkg => .ok ⟨url, sha, .topLevel pkg⟩
      | .cab =>
        match maybePkg with
        | some _ => .error .cabWithPkg
        | none =>
          if relEnd < tail.length then .ok ⟨url, sha, .cab (tail.drop relEnd)⟩
          else .error .cabMissingPath

theorem drop_after (a : Str) (x : Char) (rest : Str) :
    (a ++ x :: rest).drop (a.length + 1) = rest := by
  have h1 : a ++ x :: rest = (a ++ [x]) ++ rest := by simp
  rw [h1]
  have hl : a.length + 1 = (a ++ [x]).length := by simp
  rw [hl, List.drop_left]

theorem take_at (a : Str) (x : Char) (rest : Str) :
    (a ++ x :: rest).take a.length = a := by
  have h1 : a ++ x :: rest = a ++ (x :: rest) := rfl
  rw [h1, List.take_left]

theorem parse_split (T url tail : Str) (maybePkg : Option MsvcupPackage)
    (uk : LockFileUrlKind)
    (hT : '|' ∉ T) (hU : '|' ∉ url)
    (hkind : get_lock_file_url_kind url = some uk)
    (hpkgE : (if T = [] then (Except.ok none : Except LockParseErr (Option MsvcupPackage))
              else
                match MsvcupPackage.from_string T with
                | .ok p => .ok (some p)
                | .error e => .error (.badPkg e)) = .ok maybePkg) :
    parse_lock_file_payload (T ++ '|' :: (url ++ '|' :: tail)) =
      parseHashStage maybePkg uk url tail := by
  set line := T ++ '|' :: (url ++ '|' :: tail) with hline
  have e1 : findSub ['|'] line = some T.length := findSub_char_here '|' T _ hT
  have e2 : sliceStr line 0 T.length = T := by
    unfold sliceStr
    simp only [List.drop_zero, Nat.sub_zero]
    exact take_at T '|' _
  have e3 : line.drop (T.length + 1) = url ++ '|' :: tail := drop_after T '|' _
  have e4 : findSub ['|'] (url ++ '|' :: tail) = some url.length :=
    findSub_char_here '|' url tail hU
  have e5 : sliceStr line (T.length + 1) (T.length + 1 + url.length) = url := by
    unfold sliceStr
    rw [e3]
    have : T.length + 1 + url.length - (T.length + 1) = url.length := by omega
    rw [this]
    exact take_at url '|' tail
  have e6 : line.drop (T.length + 1 + url.length + 1) = tail := by
    have key := List.drop_drop (url.length + 1) (T.length + 1) line
    rw [e3, drop_after url '|' tail] at key
    have harith : T.length + 1 + url.length + 1 = T.length + 1 + (url.length + 1) := by
      omega
    rw [harith]
    exact key.symm
  have e7 : line.length = T.length + 1 + url.length + 1 + tail.length := by
    rw [hline]
    simp
    omega
  unfold parse_lock_file_payload
  rw [e1]
  simp only [e2]
  rw [hpkgE]
  simp only [e3]
  rw [e4]
  simp only [e5]
  rw [hkind]
  unfold parseHashStage
  cases hsp : findSub [' '] tail with
  | none =>
    have e8 : sliceStr line (T.length + 1 + url.length + 1) line.length = tail := by
      unfold sliceStr
      rw [e6]
      have h9 : line.length - (T.length + 1 + url.length + 1) = tail.length := by omega
      rw [h9, List.take_length]
    simp only [e6, hsp, e8, List.take_length, lt_self_iff_false, if_false]
  | some i =>
    have hi := findSub_bound [' '] tail i hsp
    have e8 : sliceStr line (T.length + 1 + url.length + 1)
        (T.length + 1 + url.length + 1 + i) = tail.take i := by
      unfold sliceStr
      rw [e6]
      have h9 : T.length + 1 + url.length + 1 + i - (T.length + 1 + url.length + 1) = i := by
        omega
      rw [h9]
    have e10 : line.drop (T.length + 1 + url.length + 1 + i) = tail.drop i := by
      have key := List.drop_drop i (T.length + 1 + url.length + 1) line
      rw [e6] at key
      exact key.symm
    have hiff : (T.length + 1 + url.length + 1 + i < line.length) ↔ (i < tail.length) := by
      rw [e7]
      omega
    simp only [e6, hsp, e8, e10, hiff]

theorem space_not_mem_to_hex (sha : Sha256) (h : ∀ b ∈ sha, b < 256) :
    ' ' ∉ sha256_to_hex sha := by
  intro hmem
  obtain ⟨n, hn, hc⟩ := mem_sha256_to_hex h hmem
  exact (hexCharL_ne n hn).1 hc.symm

theorem space_not_mem_natDec (i : Nat) : ' ' ∉ natDec i := by
  intro hmem
  exact (natDec_no_specials i ' ' hmem).1 rfl

theorem pipe_not_mem_asStr : ∀ k : MsvcupPackageKind, '|' ∉ k.asStr := by
  decide

theorem pool_string_no_pipe (pkg : MsvcupPackage)
    (hv : is_valid_version pkg.version = true) : '|' ∉ pkg.pool_string := by
  intro hmem
  unfold MsvcupPackage.pool_string at hmem
  rw [List.mem_append] at hmem
  rcases hmem with hmem | hmem
  · exact pipe_not_mem_asStr pkg.kind hmem
  · rw [List.mem_cons] at hmem
    rcases hmem with hmem | hmem
    · cases hmem
    · have hall := ((is_valid_version_iff pkg.version).mp hv).2.1
      have := hall '|' hmem
      simp [digitOrDot, Char.isDigit] at this

theorem asStr_ne_nil : ∀ k : MsvcupPackageKind, k.asStr ≠ [] := by
  decide

theorem pool_string_ne_nil (pkg : MsvcupPackage) : pkg.pool_string ≠ [] := by
  unfold MsvcupPackage.pool_string
  intro h
  have := congrArg List.length h
  simp at this

theorem from_string_pool (pkg : MsvcupPackage)
    (hv : is_valid_version pkg.version = true) :
    MsvcupPackage.from_string pkg.pool_string = .ok pkg := by
  unfold MsvcupPackage.from_string MsvcupPackage.pool_string
  rw [kindFromPoolStr_pool]
  simp [hv]

theorem offset_hex_eq (url : Str) (sha : Sha256) (i : Nat) (hwf : Sha256WF sha)
    (hfind : findSub (sha256_to_hex sha) (lowerStr url) = some i) :
    i + 64 ≤ url.length ∧
    lowerStr (sliceStr url i (i + 64)) = sha256_to_hex sha := by
  obtain ⟨hb1, hb2⟩ := findSub_bound _ _ _ hfind
  have hpl : (sha256_to_hex sha).length = 64 := by
    rw [sha256_to_hex_length, hwf.1]
  have hlu : (lowerStr url).length = url.length := by
    unfold lowerStr
    exact List.length_map _ _
  rw [hpl] at hb1 hb2
  constructor
  · omega
  · unfold sliceStr
    have h64 : i + 64 - i = 64 := by omega
    rw [h64]
    unfold lowerStr
    rw [List.map_take, List.map_drop]
    exact hb2

theorem hash_field_full (url : Str) (sha : Sha256) (hwf : Sha256WF sha) :
    (if (sha256_to_hex sha).length = 64 then
        (Except.ok (lowerStr (sha256_to_hex sha)) : Except LockParseErr Str)
      else
        match parseU64 (sha256_to_hex sha) with
        | none => .error .badHashSpec
        | some hashIndex =>
          if url.length < hashIndex + 64 then .error .hashIndexOob
          else .ok (lowerStr (sliceStr url hashIndex (hashIndex + 64)))) =
      .ok (sha256_to_hex sha) := by
  rw [if_pos (by rw [sha256_to_hex_length, hwf.1])]
  rw [lowerStr_to_hex sha hwf.2]

theorem hash_field_offset (url : Str) (sha : Sha256) (i : Nat) (hwf : Sha256WF sha)
    (hlen : url.length < 2 ^ 64)
    (hfind : findSub (sha256_to_hex sha) (lowerStr url) = some i) :
    (if (natDec i).length = 64 then
        (Except.ok (lowerStr (natDec i)) : Except LockParseErr Str)
      else
        match parseU64 (natDec i) with
        | none => .error .badHashSpec
        | some hashIndex =>
          if url.length < hashIndex + 64 then .error .hashIndexOob
          else .ok (lowerStr (sliceStr url hashIndex (hashIndex + 64)))) =
      .ok (sha256_to_hex sha) := by
  obtain ⟨hbound, hslice⟩ := offset_hex_eq url sha i hwf hfind
  have hi64 : i < 2 ^ 64 := by omega
  rw [if_neg (natDec_length_ne_64 i hi64)]
  rw [parseU64_natDec i hi64]
  simp only []
  rw [if_neg (by omega), hslice]

/-- C1 (amended): the lock-file codec round-trips the target, URL, sha256
and kind exactly, in both hash encodings, for well-formed payloads (URL of
a recognized kind, no pipe in the URL, URL shorter than 2^64 bytes, a
32-byte hash, and a valid version on the target).  For Cab payloads the
parsed path is NOT the written file name itself: it carries the separating
space as its first character, and under the full-hash encoding the name is
first stripped to its backslash-basename (see the counterexample). -/
theorem c1_roundtrip_amended
    (uk : LockFileUrlKind) (url : Str) (sha : Sha256) (fn : Str)
    (hk : get_lock_file_url_kind url = some uk)
    (hU : '|' ∉ url)
    (hlen : url.length < 2 ^ 64)
    (hwf : Sha256WF sha) :
    (∀ pkg : MsvcupPackage, uk ≠ .cab → is_valid_version pkg.version = true →
      parse_lock_file_payload (write_payload (some pkg) uk url sha fn) =
        .ok ⟨url, sha, .topLevel pkg⟩) ∧
    (uk = .cab →
      parse_lock_file_payload (write_payload none uk url sha fn) =
        .ok ⟨url, sha, .cab (' ' ::
          (if (findSub (sha256_to_hex sha) (lowerStr url)).isSome then fn
           else cabDisplayName fn))⟩) := by
  constructor
  · intro pkg hnc hv
    have hT := pool_string_no_pipe pkg hv
    have hTne := pool_string_ne_nil pkg
    have hfs := from_string_pool pkg hv
    cases uk with
    | cab => exact absurd rfl hnc
    | vsix =>
      unfold write_payload
      dsimp only
      cases hfind : findSub (sha256_to_hex sha) (lowerStr url) with
      | some i =>
        simp only [List.append_nil]
        rw [parse_split pkg.pool_string url (natDec i) (some pkg) .vsix hT hU hk
          (by rw [if_neg hTne, hfs])]
        unfold parseHashStage
        rw [findSub_char_none ' ' (natDec i) (space_not_mem_natDec i)]
        dsimp only
        rw [List.take_length, hash_field_offset url sha i hwf hlen hfind]
        dsimp only
        rw [sha256_parse_to_hex sha hwf]
      | none =>
        simp only [List.append_nil]
        rw [parse_split pkg.pool_string url (sha256_to_hex sha) (some pkg) .vsix hT hU hk
          (by rw [if_neg hTne, hfs])]
        unfold parseHashStage
        rw [findSub_char_none ' ' (sha256_to_hex sha) (space_not_mem_to_hex sha hwf.2)]
        dsimp only
        rw [List.take_length, hash_field_full url sha hwf]
        dsimp only
        rw [sha256_parse_to_hex sha hwf]
    | msi =>
      unfold write_payload
      dsimp only
      cases hfind : findSub (sha256_to_hex sha) (lowerStr url) with
      | some i =>
        simp only [List.append_nil]
        rw [parse_split pkg.pool_string url (natDec i) (some pkg) .msi hT hU hk
          (by rw [if_neg hTne, hfs])]
        unfold parseHashStage
        rw [findSub_char_none ' ' (natDec i) (space_not_mem_natDec i)]
        dsimp only
        rw [List.take_length, hash_field_offset url sha i hwf hlen hfind]
        dsimp only
        rw [sha256_parse_to_hex sha hwf]
      | none =>
        simp only [List.append_nil]
        rw [parse_split pkg.pool_string url (sha256_to_hex sha) (some pkg) .msi hT hU hk
          (by rw [if_neg hTne, hfs])]
        unfold parseHashStage
        rw [findSub_char_none ' ' (sha256_to_hex sha) (space_not_mem_to_hex sha hwf.2)]
        dsimp only
        rw [List.take_length, hash_field_full url sha hwf]
        dsimp only
        rw [sha256_parse_to_hex sha hwf]
    | zip =>
      unfold write_payload
      dsimp only
      cases hfind : findSub (sha256_to_hex sha) (lowerStr url) with
      | some i =>
        simp only [List.append_nil]
        rw [parse_split pkg.pool_string url (natDec i) (some pkg) .zip hT hU hk
          (by rw [if_neg hTne, hfs])]
        unfold parseHashStage
        rw [findSub_char_none ' ' (natDec i) (space_not_mem_natDec i)]
        dsimp only
        rw [List.take_length, hash_field_offset url sha i hwf hlen hfind]
        dsimp only
        rw [sha256_parse_to_hex sha hwf]
      | none =>
        simp only [List.append_nil]
        rw [parse_split pkg.pool_string url (sha256_to_hex sha) (some pkg) .zip hT hU hk
          (by rw [if_neg hTne, hfs])]
        unfold parseHashStage
        rw [findSub_char_none ' ' (sha256_to_hex sha) (space_not_mem_to_hex sha hwf.2)]
        dsimp only
        rw [List.take_length, hash_field_full url sha hwf]
        dsimp only
        rw [sha256_parse_to_hex sha hwf]
  · intro hcab
    subst hcab
    unfold write_payload
    dsimp only
    cases hfind : findSub (sha256_to_hex sha) (lowerStr url) with
    | some i =>
      have htail : natDec i ++ [' '] ++ fn = natDec i ++ ' ' :: fn := by
        rw [List.append_assoc]
        rfl
      simp only [htail]
      rw [show parse_lock_file_payload ([] ++ '|' :: (url ++ '|' :: (natDec i ++ ' ' :: fn))) =
            parseHashStage none .cab url (natDec i ++ ' ' :: fn) from
          parse_split [] url (natDec i ++ ' ' :: fn) none .cab (by simp) hU hk rfl]
      unfold parseHashStage
      rw [findSub_char_here ' ' (natDec i) fn (space_not_mem_natDec i)]
      dsimp only
      rw [List.take_left, hash_field_offset url sha i hwf hlen hfind]
      dsimp only
      rw [sha256_parse_to_hex sha hwf]
      dsimp only
      have hlt : (natDec i).length < (natDec i ++ ' ' :: fn).length := by simp
      rw [if_pos hlt, List.drop_left]
      simp [hfind]
    | none =>
      have htail : sha256_to_hex sha ++ [' '] ++ cabDisplayName fn =
          sha256_to_hex sha ++ ' ' :: cabDisplayName fn := by
        rw [List.append_assoc]
        rfl
      simp only [htail]
      rw [show parse_lock_file_payload
            ([] ++ '|' :: (url ++ '|' :: (sha256_to_hex sha ++ ' ' :: cabDisplayName fn))) =
            parseHashStage none .cab url (sha256_to_hex sha ++ ' ' :: cabDisplayName fn) from
          parse_split [] url (sha256_to_hex sha ++ ' ' :: cabDisplayName fn) none .cab
            (by simp) hU hk rfl]
      unfold parseHashStage
      rw [findSub_char_here ' ' (sha256_to_hex sha) (cabDisplayName fn)
        (space_not_mem_to_hex sha hwf.2)]
      dsimp only
      rw [List.take_left, hash_field_full url sha hwf]
      dsimp only
      rw [sha256_parse_to_hex sha hwf]
      dsimp only
      have hlt : (sha256_to_hex sha).length <
          (sha256_to_hex sha ++ ' ' :: cabDisplayName fn).length := by simp
      rw [if_pos hlt, List.drop_left]
      simp [hfind]

/-- C1 witness: the round trip applied to a concrete TopLevel payload in the
full-hash encoding. -/
theorem c1_roundtrip_amended_witness :
    parse_lock_file_payload (write_payload (some ⟨.msvc, str ("14.40.33807")⟩) .vsix
        (str ("https://x/a.vsix")) (List.replicate 32 0) (str (""))) =
      .ok ⟨str ("https://x/a.vsix"), List.replicate 32 0,
        .topLevel ⟨.msvc, str ("14.40.33807")⟩⟩ :=
  (c1_roundtrip_amended .vsix (str ("https://x/a.vsix")) (List.replicate 32 0)
      (str ("")) (by decide) (by decide) (by decide) ⟨by decide, by decide⟩).1
    ⟨.msvc, str ("14.40.33807")⟩ (by decide) (by decide)

/-- C1 counterexample: for a Cab payload the parse of the written line does
not return the written path: the parsed path keeps the separating space as
its first character, so it differs from the file name passed to
`write_payload`. -/
theorem c1_cab_path_not_identical :
    parse_lock_file_payload (write_payload none .cab (str ("http://h/p.cab"))
        (List.replicate 32 0) (str ("p.cab"))) =
      .ok ⟨str ("http://h/p.cab"), List.replicate 32 0,
        .cab (' ' :: str ("p.cab"))⟩ ∧
    (' ' :: str ("p.cab")) ≠ str ("p.cab") := by
  constructor
  · rfl
  · decide

/-! ## Lock file consistency check (src/lockfile_parse.rs) -/

/-- Model of Rust `str::lines`: split on newlines, with a trailing newline
producing no extra empty line (the sources never contain carriage returns). -/
def linesOf (s : Str) : List Str :=
  if s = [] then []
  else if s.getLast? = some '\n' then (splitCh '\n' s).dropLast
  else splitCh '\n' s

/-- The diagnostics `check_lock_file_pkgs` can produce; the Rust function
formats them into strings. -/
inductive LockDiag
  | parseError (e : LockParseErr)
  | missingPackage (p : MsvcupPackage)
  | extraPackage (p : MsvcupPackage)
deriving DecidableEq

/-- The three observable outcomes of `check_lock_file_pkgs`: the assert
panic on an empty request, a mismatch diagnostic, or success (None). -/
inductive CheckRes
  | panicked
  | mismatch (d : LockDiag)
  | ok
deriving DecidableEq

/-- The inner `while let` loop of `check_lock_file_pkgs`, resolving one
TopLevel package against the cursor into the requested list: on Equal the
match count rises, on Greater the entry is extra, on Less the walk advances
to the next requested package (if the current one was matched) and retries
the same entry. -/
def checkInner : MsvcupPackage → List MsvcupPackage → Nat → MsvcupPackage →
    Except LockDiag (MsvcupPackage × List MsvcupPackage × Nat)
  | cur, rest, count, p =>
    match MsvcupPackage.order cur p with
    | .eq => .ok (cur, rest, count + 1)
    | .gt => .error (.extraPackage p)
    | .lt =>
      if count = 0 then .error (.missingPackage cur)
      else
        match rest with
        | [] => .error (.extraPackage p)
        | r :: rs => checkInner r rs 0 p

/-- The line walk of `check_lock_file_pkgs`: empty lines are skipped, parse
errors become diagnostics, Cab entries do not engage the `while let` loop,
and the final check requires the requested list consumed with a non-zero
match count. -/
def checkLines (cur : MsvcupPackage) (rest : List MsvcupPackage) (count : Nat) :
    List Str → Option LockDiag
  | [] => if rest ≠ [] ∨ count = 0 then some (.missingPackage cur) else none
  | l :: ls =>
    if l = [] then checkLines cur rest count ls
    else
      match parse_lock_file_payload l with
      | .error e => some (.parseError e)
      | .ok parsed =>
        match parsed.url_kind with
        | .cab _ => checkLines cur rest count ls
        | .topLevel p =>
          match checkInner cur rest count p with
          | .error d => some d
          | .ok (c, r, n) => checkLines c r n ls

/-- Model of `check_lock_file_pkgs` (src/lockfile_parse.rs), including the
`assert!(!msvcup_pkgs.is_empty())` modelled as a distinct panic outcome. -/
def check_lock_file_pkgs (content : Str) (msvcup_pkgs : List MsvcupPackage) :
    CheckRes :=
  match msvcup_pkgs with
  | [] => .panicked
  | c :: r =>
    match checkLines c r 0 (linesOf content) with
    | some d => .mismatch d
    | none => .ok

/-- The same walk over the already-extracted TopLevel package sequence;
`checkLines_eq_checkPkgs` relates the two when all lines parse. -/
def checkPkgs (cur : MsvcupPackage) (rest : List MsvcupPackage) (count : Nat) :
    List MsvcupPackage → Option LockDiag
  | [] => if rest ≠ [] ∨ count = 0 then some (.missingPackage cur) else none
  | p :: ps =>
    match checkInner cur rest count p with
    | .error d => some d
    | .ok (c, r, n) => checkPkgs c r n ps

/-- The TopLevel packages of a list of lock-file lines, in order. -/
def topLevelsOf (ls : List Str) : List MsvcupPackage :=
  ls.filterMap (fun l =>
    if l = [] then none
    else
      match parse_lock_file_payload l with
      | .ok ⟨_, _, .topLevel p⟩ => some p
      | _ => none)

/-- The TopLevel package sequence of a lock file content. -/
def lockTopLevels (content : Str) : List MsvcupPackage :=
  topLevelsOf (linesOf content)

/-- Spec-side predicate from the claim wording: the sequence consists of,
in the order of the requested list, at least one consecutive entry with
identity equal (under `order`) to each requested package and nothing else. -/
def Blocks : List MsvcupPackage → List MsvcupPackage → Prop
  | [], s => s = []
  | r :: rs, s =>
    ∃ a b, s = a ++ b ∧ a ≠ [] ∧ (∀ x ∈ a, MsvcupPackage.order r x = .eq) ∧ Blocks rs b

/-- Loop-invariant generalization of `Blocks` carrying the match count of
the current requested package. -/
def BlocksFrom (cur : MsvcupPackage) (rest : List MsvcupPackage) (count : Nat)
    (s : List MsvcupPackage) : Prop :=
  ∃ a b, s = a ++ b ∧ (∀ x ∈ a, MsvcupPackage.order cur x = .eq) ∧
    (count ≠ 0 ∨ a ≠ []) ∧ Blocks rest b

theorem Blocks_nil_iff : ∀ rs : List MsvcupPackage, Blocks rs [] ↔ rs = [] := by
  intro rs
  cases rs with
  | nil => simp [Blocks]
  | cons r t =>
    simp only [Blocks]
    constructor
    · rintro ⟨a, b, hab, hane, _, _⟩
      exact absurd (List.append_eq_nil.mp hab.symm).1 hane
    · intro h; cases h

theorem Blocks_cons_first {r : MsvcupPackage} {rs : List MsvcupPackage}
    {p : MsvcupPackage} {ps : List MsvcupPackage}
    (h : Blocks (r :: rs) (p :: ps)) : MsvcupPackage.order r p = .eq := by
  obtain ⟨a, b, hab, hane, hall, _⟩ := h
  cases a with
  | nil => exact absurd rfl hane
  | cons x t =>
    have : x = p := by
      rw [List.cons_append] at hab
      exact (List.cons_eq_cons.mp hab).1.symm
    subst this
    exact hall x (by simp)

/-- Abbreviation for the sortedness hypothesis of the consistency check. -/
def SortedReq (pkgs : List MsvcupPackage) : Prop :=
  List.Chain' (fun a b => MsvcupPackage.order a b = .lt) pkgs

theorem sorted_head_lt {cur r : MsvcupPackage} {rs : List MsvcupPackage}
    (hch : SortedReq (cur :: r :: rs)) : MsvcupPackage.order cur r = .lt :=
  (List.chain'_cons.mp hch).1

theorem lt_of_lt_of_block_eq {cur r p : MsvcupPackage}
    (h1 : MsvcupPackage.order cur r = .lt) (h2 : MsvcupPackage.order r p = .eq) :
    MsvcupPackage.order cur p = .lt := by
  rw [MsvcupPackage.order_laws.eq_subst_right cur h2, h1]

theorem blocks_head_lt {cur : MsvcupPackage} {rest : List MsvcupPackage}
    {p : MsvcupPackage} {ps : List MsvcupPackage}
    (hch : SortedReq (cur :: rest)) (hbl : Blocks rest (p :: ps)) :
    MsvcupPackage.order cur p = .lt := by
  cases rest with
  | nil => simp [Blocks] at hbl
  | cons r rs =>
    exact lt_of_lt_of_block_eq (sorted_head_lt hch) (Blocks_cons_first hbl)

theorem BlocksFrom_eq_step {cur : MsvcupPackage} {rest : List MsvcupPackage}
    {count : Nat} {p : MsvcupPackage} {ps : List MsvcupPackage}
    (hch : SortedReq (cur :: rest)) (hp : MsvcupPackage.order cur p = .eq) :
    BlocksFrom cur rest count (p :: ps) ↔ BlocksFrom cur rest (count + 1) ps := by
  constructor
  · rintro ⟨a, b, hab, hall, hcnt, hbl⟩
    cases a with
    | nil =>
      simp only [List.nil_append] at hab
      subst hab
      have := blocks_head_lt hch hbl
      rw [hp] at this
      cases this
    | cons x t =>
      rw [List.cons_append] at hab
      obtain ⟨hx, ht⟩ := List.cons_eq_cons.mp hab
      subst hx
      refine ⟨t, b, ht, fun y hy => hall y (by simp [hy]), Or.inl (by omega), hbl⟩
  · rintro ⟨a, b, hab, hall, hcnt, hbl⟩
    refine ⟨p :: a, b, by rw [List.cons_append, hab], ?_, Or.inr (by simp), hbl⟩
    intro y hy
    rcases List.mem_cons.mp hy with rfl | hy
    · exact hp
    · exact hall y hy

theorem BlocksFrom_not_gt {cur : MsvcupPackage} {rest : List MsvcupPackage}
    {count : Nat} {p : MsvcupPackage} {ps : List MsvcupPackage}
    (hch : SortedReq (cur :: rest)) (hp : MsvcupPackage.order cur p = .gt) :
    ¬ BlocksFrom cur rest count (p :: ps) := by
  rintro ⟨a, b, hab, hall, hcnt, hbl⟩
  cases a with
  | nil =>
    simp only [List.nil_append] at hab
    subst hab
    have := blocks_head_lt hch hbl
    rw [hp] at this
    cases this
  | cons x t =>
    rw [List.cons_append] at hab
    obtain ⟨hx, _⟩ := List.cons_eq_cons.mp hab
    subst hx
    have := hall p (by simp)
    rw [hp] at this
    cases this

theorem BlocksFrom_not_lt0 {cur : MsvcupPackage} {rest : List MsvcupPackage}
    {p : MsvcupPackage} {ps : List MsvcupPackage}
    (hp : MsvcupPackage.order cur p = .lt) :
    ¬ BlocksFrom cur rest 0 (p :: ps) := by
  rintro ⟨a, b, hab, hall, hcnt, hbl⟩
  cases a with
  | nil =>
    rcases hcnt with h | h
    · exact h rfl
    · exact h rfl
  | cons x t =>
    rw [List.cons_append] at hab
    obtain ⟨hx, _⟩ := List.cons_eq_cons.mp hab
    subst hx
    have := hall p (by simp)
    rw [hp] at this
    cases this

theorem BlocksFrom_not_lt_nilrest {cur : MsvcupPackage} {count : Nat}
    {p : MsvcupPackage} {ps : List MsvcupPackage}
    (hp : MsvcupPackage.order cur p = .lt) :
    ¬ BlocksFrom cur [] count (p :: ps) := by
  rintro ⟨a, b, hab, hall, hcnt, hbl⟩
  cases a with
  | nil =>
    simp only [List.nil_append] at hab
    subst hab
    simp [Blocks] at hbl
  | cons x t =>
    rw [List.cons_append] at hab
    obtain ⟨hx, _⟩ := List.cons_eq_cons.mp hab
    subst hx
    have := hall p (by simp)
    rw [hp] at this
    cases this

theorem BlocksFrom_lt_step {cur r : MsvcupPackage} {rs : List MsvcupPackage}
    {count : Nat} {p : MsvcupPackage} {ps : List MsvcupPackage}
    (hp : MsvcupPackage.order cur p = .lt) (hcount : count ≠ 0) :
    BlocksFrom cur (r :: rs) count (p :: ps) ↔ BlocksFrom r rs 0 (p :: ps) := by
  constructor
  · rintro ⟨a, b, hab, hall, hcnt, hbl⟩
    cases a with
    | nil =>
      simp only [List.nil_append] at hab
      subst hab
      obtain ⟨a2, b2, hab2, hane2, hall2, hbl2⟩ := hbl
      exact ⟨a2, b2, hab2, hall2, Or.inr hane2, hbl2⟩
    | cons x t =>
      rw [List.cons_append] at hab
      obtain ⟨hx, _⟩ := List.cons_eq_cons.mp hab
      subst hx
      have := hall p (by simp)
      rw [hp] at this
      cases this
  · rintro ⟨a, b, hab, hall, hcnt, hbl⟩
    have hane : a ≠ [] := by
      rcases hcnt with h | h
      · exact absurd rfl h
      · exact h
    exact ⟨[], p :: ps, rfl, by simp, Or.inl hcount, a, b, hab, hane, hall, hbl⟩

theorem checkPkgs_nil_iff (cur : MsvcupPackage) (rest : List MsvcupPackage)
    (count : Nat) :
    checkPkgs cur rest count [] = none ↔ BlocksFrom cur rest count [] := by
  simp only [checkPkgs]
  constructor
  · intro h
    split at h
    · cases h
    · rename_i hcond
      push_neg at hcond
      obtain ⟨hr, hc⟩ := hcond
      refine ⟨[], [], rfl, by simp, Or.inl hc, ?_⟩
      rw [hr]
      rfl
  · rintro ⟨a, b, hab, hall, hcnt, hbl⟩
    have ha : a = [] := (List.append_eq_nil.mp hab.symm).1
    have hb : b = [] := (List.append_eq_nil.mp hab.symm).2
    subst ha
    subst hb
    have hrest : rest = [] := (Blocks_nil_iff rest).mp hbl
    have hc : count ≠ 0 := by
      rcases hcnt with h | h
      · exact h
      · exact absurd rfl h
    rw [if_neg]
    push_neg
    exact ⟨hrest, hc⟩

theorem checkPkgs_cons (cur : MsvcupPackage) (rest : List MsvcupPackage)
    (count : Nat) (p : MsvcupPackage) (ps : List MsvcupPackage) :
    checkPkgs cur rest count (p :: ps) =
      match checkInner cur rest count p with
      | .error d => some d
      | .ok (c, r, n) => checkPkgs c r n ps := rfl

theorem checkInner_eq_def (cur : MsvcupPackage) (rest : List MsvcupPackage)
    (count : Nat) (p : MsvcupPackage) :
    checkInner cur rest count p =
      match MsvcupPackage.order cur p with
      | .eq => .ok (cur, rest, count + 1)
      | .gt => .error (.extraPackage p)
      | .lt =>
        if count = 0 then .error (.missingPackage cur)
        else
          match rest with
          | [] => .error (.extraPackage p)
          | r :: rs => checkInner r rs 0 p := by
  cases rest <;> simp only [checkInner]

theorem checkInner_lt_step (cur r : MsvcupPackage) (rs : List MsvcupPackage)
    (count : Nat) (p : MsvcupPackage)
    (hp : MsvcupPackage.order cur p = .lt) (hcount : count ≠ 0) :
    checkInner cur (r :: rs) count p = checkInner r rs 0 p := by
  rw [checkInner_eq_def, hp]
  simp [hcount]

theorem checkPkgs_none_iff_aux :
    ∀ (n : Nat) (cur : MsvcupPackage) (rest : List MsvcupPackage) (count : Nat)
      (seq : List MsvcupPackage),
      rest.length + seq.length ≤ n →
      SortedReq (cur :: rest) →
      (checkPkgs cur rest count seq = none ↔ BlocksFrom cur rest count seq) := by
  intro n
  induction n with
  | zero =>
    intro cur rest count seq hle hch
    have hs : seq = [] := by
      cases seq
      · rfl
      · simp at hle
    subst hs
    exact checkPkgs_nil_iff cur rest count
  | succ n ih =>
    intro cur rest count seq hle hch
    cases seq with
    | nil => exact checkPkgs_nil_iff cur rest count
    | cons p ps =>
      cases horder : MsvcupPackage.order cur p with
      | eq =>
        have hstep : checkPkgs cur rest count (p :: ps) =
            checkPkgs cur rest (count + 1) ps := by
          rw [checkPkgs_cons, checkInner_eq_def, horder]
        rw [hstep, BlocksFrom_eq_step hch horder]
        exact ih cur rest (count + 1) ps (by simp at hle ⊢; omega) hch
      | gt =>
        have hstep : checkPkgs cur rest count (p :: ps) =
            some (.extraPackage p) := by
          rw [checkPkgs_cons, checkInner_eq_def, horder]
        rw [hstep]
        simp only [reduceCtorEq, false_iff]
        exact BlocksFrom_not_gt hch horder
      | lt =>
        by_cases hcount : count = 0
        · subst hcount
          have hstep : checkPkgs cur rest 0 (p :: ps) =
              some (.missingPackage cur) := by
            rw [checkPkgs_cons, checkInner_eq_def, horder]
            simp
          rw [hstep]
          simp only [reduceCtorEq, false_iff]
          exact BlocksFrom_not_lt0 horder
        · cases rest with
          | nil =>
            have hstep : checkPkgs cur [] count (p :: ps) =
                some (.extraPackage p) := by
              rw [checkPkgs_cons, checkInner_eq_def, horder]
              simp [hcount]
            rw [hstep]
            simp only [reduceCtorEq, false_iff]
            exact BlocksFrom_not_lt_nilrest horder
          | cons r rs =>
            have hstep : checkPkgs cur (r :: rs) count (p :: ps) =
                checkPkgs r rs 0 (p :: ps) := by
              rw [checkPkgs_cons, checkInner_lt_step cur r rs count p horder hcount,
                ← checkPkgs_cons]
            rw [hstep, BlocksFrom_lt_step horder hcount]
            exact ih r rs 0 (p :: ps) (by simp at hle ⊢; omega)
              (List.chain'_cons.mp hch).2

theorem checkPkgs_none_iff (cur : MsvcupPackage) (rest : List MsvcupPackage)
    (seq : List MsvcupPackage) (hch : SortedReq (cur :: rest)) :
    checkPkgs cur rest 0 seq = none ↔ Blocks (cur :: rest) seq := by
  rw [checkPkgs_none_iff_aux (rest.length + seq.length) cur rest 0 seq
    (Nat.le_refl _) hch]
  constructor
  · rintro ⟨a, b, hab, hall, hcnt, hbl⟩
    have hane : a ≠ [] := by
      rcases hcnt with h | h
      · exact absurd rfl h
      · exact h
    exact ⟨a, b, hab, hane, hall, hbl⟩
  · rintro ⟨a, b, hab, hane, hall, hbl⟩
    exact ⟨a, b, hab, hall, Or.inr hane, hbl⟩

theorem exceptIsOk_iff {ε α : Type} (e : Except ε α) :
    e.isOk = true ↔ ∃ a, e = .ok a := by
  cases e <;> simp [Except.isOk, Except.toBool]

theorem checkLines_eq_checkPkgs :
    ∀ (ls : List Str) (cur : MsvcupPackage) (rest : List MsvcupPackage) (count : Nat),
      (∀ l ∈ ls, l ≠ [] → (parse_lock_file_payload l).isOk = true) →
      checkLines cur rest count ls = checkPkgs cur rest count (topLevelsOf ls) := by
  intro ls
  induction ls with
  | nil => intro cur rest count _; rfl
  | cons l ls ih =>
    intro cur rest count hparse
    have hrest : ∀ l ∈ ls, l ≠ [] → (parse_lock_file_payload l).isOk = true :=
      fun x hx => hparse x (by simp [hx])
    by_cases hl : l = []
    · subst hl
      simp only [checkLines, topLevelsOf, List.filterMap_cons, if_pos rfl]
      exact ih cur rest count hrest
    · obtain ⟨pl, hpl⟩ := (exceptIsOk_iff _).mp (hparse l (by simp) hl)
      simp only [checkLines, if_neg hl, hpl]
      obtain ⟨u, s, k⟩ := pl
      cases k with
      | cab path =>
        have htl : topLevelsOf (l :: ls) = topLevelsOf ls := by
          simp only [topLevelsOf, List.filterMap_cons, if_neg hl, hpl]
        rw [htl]
        dsimp only
        exact ih cur rest count hrest
      | topLevel p =>
        have htl : topLevelsOf (l :: ls) = p :: topLevelsOf ls := by
          simp only [topLevelsOf, List.filterMap_cons, if_neg hl, hpl]
        rw [htl, checkPkgs_cons]
        dsimp only
        cases checkInner cur rest count p with
        | error d => rfl
        | ok st =>
          obtain ⟨c, r, nn⟩ := st
          exact ih c r nn hrest

/-- A concrete lock file containing only sdk-10.0.22000 TopLevel entries. -/
def exSdkLockContent : Str :=
  str ("sdk-10.0.22000|https://x/a.vsix|0000000000000000000000000000000000000000000000000000000000000000\n")

/-- C2: for a non-empty, sorted, duplicate-free requested list and a lock
file whose non-empty lines all parse, `check_lock_file_pkgs` returns None
(modelled `.ok`) exactly when the TopLevel sequence is, in requested order,
one or more consecutive entries per requested package and nothing else; and
requesting only msvc-14.40.33807 against a lock file containing only
sdk-10.0.22000 entries yields a missing-package diagnostic. -/
theorem c2_check_lock_file_pkgs :
    (∀ (content : Str) (pkgs : List MsvcupPackage),
      pkgs ≠ [] → SortedReq pkgs →
      (∀ l ∈ linesOf content, l ≠ [] → (parse_lock_file_payload l).isOk = true) →
      (check_lock_file_pkgs content pkgs = .ok ↔
        Blocks pkgs (lockTopLevels content))) ∧
    check_lock_file_pkgs exSdkLockContent [⟨.msvc, str ("14.40.33807")⟩] =
      .mismatch (.missingPackage ⟨.msvc, str ("14.40.33807")⟩) := by
  constructor
  · intro content pkgs hne hsorted hparse
    obtain ⟨c, r, rfl⟩ := List.exists_cons_of_ne_nil hne
    show (match checkLines c r 0 (linesOf content) with
      | some d => CheckRes.mismatch d
      | none => CheckRes.ok) = .ok ↔ _
    rw [checkLines_eq_checkPkgs (linesOf content) c r 0 hparse]
    unfold lockTopLevels
    constructor
    · intro h
      cases hx : checkPkgs c r 0 (topLevelsOf (linesOf content)) with
      | some d => rw [hx] at h; cases h
      | none => exact (checkPkgs_none_iff c r _ hsorted).mp hx
    · intro h
      rw [(checkPkgs_none_iff c r _ hsorted).mpr h]
  · rfl

/-- C2 witness: the characterization applied at a concrete content and
sorted singleton request. -/
theorem c2_check_lock_file_pkgs_witness :
    check_lock_file_pkgs exSdkLockContent [⟨.sdk, str ("10.0.22000")⟩] = .ok ↔
      Blocks [⟨.sdk, str ("10.0.22000")⟩] (lockTopLevels exSdkLockContent) :=
  c2_check_lock_file_pkgs.1 exSdkLockContent [⟨.sdk, str ("10.0.22000")⟩]
    (by decide) (by simp [SortedReq]) (by decide)

/-! ## C10: empty-request precondition (src/install.rs, src/lockfile_parse.rs) -/

/-- Model of the guard at the top of `install_command` (src/install.rs):
the public install command rejects an empty request with an error before
any consistency check runs. -/
def install_command_guard (msvcup_pkgs : List MsvcupPackage) :
    Except Str (List MsvcupPackage) :=
  if msvcup_pkgs = [] then .error (str ("no packages were given to install"))
  else .ok msvcup_pkgs

/-- C10: `check_lock_file_pkgs` panics (assert) exactly on an empty
requested list; the install command guard errors out on an empty request
before any consistency check, and any list that passes the guard is
non-empty, so the assertion is unreachable through that interface. -/
theorem c10_empty_request_precondition :
    (∀ content : Str, check_lock_file_pkgs content [] = .panicked) ∧
    install_command_guard [] = .error (str ("no packages were given to install")) ∧
    (∀ pkgs out : List MsvcupPackage, install_command_guard pkgs = .ok out →
      out ≠ [] ∧ ∀ content : Str, check_lock_file_pkgs content out ≠ .panicked) := by
  refine ⟨fun _ => rfl, rfl, ?_⟩
  intro pkgs out h
  unfold install_command_guard at h
  split at h
  · cases h
  · rename_i hne
    cases h
    refine ⟨hne, ?_⟩
    intro content hpan
    obtain ⟨c, r, rfl⟩ := List.exists_cons_of_ne_nil hne
    have : check_lock_file_pkgs content (c :: r) =
        match checkLines c r 0 (linesOf content) with
        | some d => CheckRes.mismatch d
        | none => CheckRes.ok := rfl
    rw [this] at hpan
    cases hx : checkLines c r 0 (linesOf content) <;> rw [hx] at hpan <;> cases hpan

/-- C10 witness: a singleton request passes the guard and cannot hit the
assert. -/
theorem c10_empty_request_precondition_witness :
    ([⟨.msvc, str ("14.40.33807")⟩] : List MsvcupPackage) ≠ [] ∧
    check_lock_file_pkgs (str ("")) [⟨.msvc, str ("14.40.33807")⟩] ≠ .panicked := by
  have h := c10_empty_request_precondition.2.2 [⟨.msvc, str ("14.40.33807")⟩]
    [⟨.msvc, str ("14.40.33807")⟩] rfl
  exact ⟨h.1, h.2 (str (""))⟩

/-! ## Payload to package lookup (src/packages.rs) -/

/-- Model of `Language` (src/packages.rs). -/
inductive Language
  | neutral
  | enUs
  | other
deriving DecidableEq

/-- Model of `Package`: manifest id, version, the offset of its first
payload in the flat payload array, and its language. -/
structure Package where
  id : Str
  version : Str
  payloads_offset : Nat
  language : Language
deriving DecidableEq

/-- Model of a manifest `Payload`. -/
structure ManifestPayload where
  url_decoded : Str
  sha256 : Sha256
  file_name : Str
deriving DecidableEq

/-- Model of `Packages`: the package list plus the flat payload array. -/
structure Packages where
  packages : List Package
  payloads : List ManifestPayload
deriving DecidableEq

/-- The payloads offset of package `i`; Rust would panic on an index out of
bounds, the model defaults (every use in the theorems is under bounds). -/
def Packages.offsetAt (P : Packages) (i : Nat) : Nat :=
  ((P.packages[i]?).map (·.payloads_offset)).getD 0

/-- Model of `payload_range_from_pkg_index` (src/packages.rs): the range
runs from the payloads offset of package `i` to the offset of the next
package, or to the end of the payload array for the last package. -/
def Packages.payload_range_from_pkg_index (P : Packages) (i : Nat) : Nat × Nat :=
  let start := P.offsetAt i
  let limit :=
    if i = P.packages.length - 1 then P.payloads.length else P.offsetAt (i + 1)
  (start, limit)

/-- Start of the payload range of package `i`. -/
def Packages.rStart (P : Packages) (i : Nat) : Nat :=
  (P.payload_range_from_pkg_index i).1

/-- End (exclusive) of the payload range of package `i`. -/
def Packages.rEnd (P : Packages) (i : Nat) : Nat :=
  (P.payload_range_from_pkg_index i).2

/-- The interpolation loop of `pkg_index_from_payload_index`, with explicit
fuel (the source loops; the fuel provided by the entry point is shown
sufficient) and the `f32` interpolation expression abstracted as an
arbitrary function `interp` of the same integer inputs — the source clamps
the cast result with `.min(remaining_pkg_count - 1)` exactly as modelled,
which is all the correctness argument needs.  The two inner `assert!`
statements are modelled as `none` outcomes and shown unreachable. -/
def pkgSearchAux (P : Packages) (interp : Nat → Nat → Nat → Nat)
    (payload_index : Nat) : Nat → Nat → Nat → Option Nat
  | 0, _, _ => none
  | fuel + 1, min, max =>
    if min = max then some min
    else if ¬ min < max then none
    else
      let remaining_pkg_count := max - min + 1
      let minRange := P.payload_range_from_pkg_index min
      let maxRange := P.payload_range_from_pkg_index max
      let remaining_payload_count := maxRange.2 - minRange.1
      if ¬ 1 ≤ remaining_payload_count then none
      else
        let guess :=
          Nat.min (interp (payload_index - minRange.1) remaining_payload_count
            remaining_pkg_count) (remaining_pkg_count - 1)
        let pkg_index := min + guess
        let range := P.payload_range_from_pkg_index pkg_index
        if payload_index < range.1 then pkgSearchAux P interp payload_index fuel min (pkg_index - 1)
        else if payload_index < range.2 then some pkg_index
        else pkgSearchAux P interp payload_index fuel (pkg_index + 1) max

/-- Model of `pkg_index_from_payload_index` (src/packages.rs), with the
entry assert on an empty package list modelled as `none`. -/
def pkg_index_from_payload_index (P : Packages) (interp : Nat → Nat → Nat → Nat)
    (payload_index : Nat) : Option Nat :=
  if P.packages = [] then none
  else pkgSearchAux P interp payload_index P.packages.length 0 (P.packages.length - 1)

/-- The linear reference scan of the claim: the first package whose range
contains the payload index. -/
def linearPkgScan (P : Packages) (payload_index : Nat) : Option Nat :=
  (List.range P.packages.length).find? (fun i =>
    decide (P.rStart i ≤ payload_index ∧ payload_index < P.rEnd i))

/-- The range invariant of the claim: non-empty package list, ranges
contiguous in declaration order starting at 0, each offset within the
payload array. -/
def RangesWF (P : Packages) : Prop :=
  P.packages ≠ [] ∧
  P.offsetAt 0 = 0 ∧
  (∀ j, j < P.packages.length → ∀ i, i ≤ j → P.offsetAt i ≤ P.offsetAt j) ∧
  (∀ i, i < P.packages.length → P.offsetAt i ≤ P.payloads.length)

theorem rEnd_last (P : Packages) :
    P.rEnd (P.packages.length - 1) = P.payloads.length := by
  unfold Packages.rEnd Packages.payload_range_from_pkg_index
  simp

theorem rEnd_eq_rStart_succ (P : Packages) (i : Nat)
    (h : i + 1 < P.packages.length) : P.rEnd i = P.rStart (i + 1) := by
  unfold Packages.rEnd Packages.rStart Packages.payload_range_from_pkg_index
  have hne : i ≠ P.packages.length - 1 := by omega
  simp [hne]

theorem rStart_mono (P : Packages) (hwf : RangesWF P) (i j : Nat) (hij : i ≤ j)
    (hj : j < P.packages.length) : P.rStart i ≤ P.rStart j :=
  hwf.2.2.1 j hj i hij

theorem rStart_le_total (P : Packages) (hwf : RangesWF P) (i : Nat)
    (hi : i < P.packages.length) : P.rStart i ≤ P.payloads.length :=
  hwf.2.2.2 i hi

theorem rStart_le_rEnd (P : Packages) (hwf : RangesWF P) (i : Nat)
    (hi : i < P.packages.length) : P.rStart i ≤ P.rEnd i := by
  by_cases h : i = P.packages.length - 1
  · subst h
    rw [rEnd_last]
    exact rStart_le_total P hwf _ hi
  · rw [rEnd_eq_rStart_succ P i (by omega)]
    exact rStart_mono P hwf i (i + 1) (by omega) (by omega)

theorem rEnd_mono (P : Packages) (hwf : RangesWF P) (i j : Nat) (hij : i ≤ j)
    (hj : j < P.packages.length) : P.rEnd i ≤ P.rEnd j := by
  by_cases hil : i = P.packages.length - 1
  · have : i = j := by omega
    subst this
    exact Nat.le_refl _
  · by_cases hjl : j = P.packages.length - 1
    · subst hjl
      rw [rEnd_last, rEnd_eq_rStart_succ P i (by omega)]
      exact rStart_le_total P hwf _ (by omega)
    · rw [rEnd_eq_rStart_succ P i (by omega), rEnd_eq_rStart_succ P j (by omega)]
      exact rStart_mono P hwf (i + 1) (j + 1) (by omega) (by omega)

theorem pkgSearchAux_succ (P : Packages) (interp : Nat → Nat → Nat → Nat)
    (pi fuel min max : Nat) :
    pkgSearchAux P interp pi (fuel + 1) min max =
      (if min = max then some min
       else if ¬ min < max then none
       else if ¬ 1 ≤ P.rEnd max - P.rStart min then none
       else
         let guess := Nat.min (interp (pi - P.rStart min)
           (P.rEnd max - P.rStart min) (max - min + 1)) (max - min + 1 - 1)
         let k := min + guess
         if pi < P.rStart k then pkgSearchAux P interp pi fuel min (k - 1)
         else if pi < P.rEnd k then some k
         else pkgSearchAux P interp pi fuel (k + 1) max) := rfl

theorem pkgSearchAux_correct (P : Packages) (interp : Nat → Nat → Nat → Nat)
    (pi : Nat) (hwf : RangesWF P) :
    ∀ fuel min max : Nat, min ≤ max → max < P.packages.length →
      max - min + 1 ≤ fuel →
      P.rStart min ≤ pi → pi < P.rEnd max →
      ∃ j, pkgSearchAux P interp pi fuel min max = some j ∧
        min ≤ j ∧ j ≤ max ∧ P.rStart j ≤ pi ∧ pi < P.rEnd j := by
  intro fuel
  induction fuel with
  | zero =>
    intro min max h1 h2 h3 h4 h5
    omega
  | succ fuel ih =>
    intro min max h1 h2 h3 h4 h5
    rw [pkgSearchAux_succ]
    by_cases heq : min = max
    · subst heq
      exact ⟨min, by simp, Nat.le_refl _, Nat.le_refl _, h4, h5⟩
    · have hlt : min < max := by omega
      rw [if_neg heq, if_neg (by omega : ¬ ¬ min < max),
        if_neg (by omega : ¬ ¬ 1 ≤ P.rEnd max - P.rStart min)]
      set gv := Nat.min (interp (pi - P.rStart min)
        (P.rEnd max - P.rStart min) (max - min + 1)) (max - min + 1 - 1) with hgv
      have hgle : gv ≤ max - min := by
        rw [hgv]
        exact le_trans (Nat.min_le_right _ _)
          (Nat.le_of_eq (Nat.add_sub_cancel (max - min) 1))
      set k := min + gv with hk
      have hkmin : min ≤ k := by omega
      have hkmax : k ≤ max := by omega
      have hklen : k < P.packages.length := by omega
      dsimp only
      by_cases hb1 : pi < P.rStart k
      · rw [if_pos hb1]
        have hkne : min ≠ k := by
          intro h
          rw [← h] at hb1
          omega
        have hkpos : min < k := by omega
        have hinv : pi < P.rEnd (k - 1) := by
          rw [rEnd_eq_rStart_succ P (k - 1) (by omega)]
          have : k - 1 + 1 = k := by omega
          rw [this]
          exact hb1
        exact ih min (k - 1) (by omega) (by omega) (by omega) h4 hinv
          |>.imp (fun j hj => ⟨hj.1, hj.2.1, by omega, hj.2.2.2⟩)
      · rw [if_neg hb1]
        by_cases hb2 : pi < P.rEnd k
        · rw [if_pos hb2]
          exact ⟨k, rfl, hkmin, hkmax, by omega, hb2⟩
        · rw [if_neg hb2]
          have hkne : k ≠ max := by
            intro h
            rw [h] at hb2
            omega
          have hinv : P.rStart (k + 1) ≤ pi := by
            rw [← rEnd_eq_rStart_succ P k (by omega)]
            omega
          exact ih (k + 1) max (by omega) h2 (by omega) hinv h5
            |>.imp (fun j hj => ⟨hj.1, by omega, hj.2.2.1, hj.2.2.2⟩)

theorem find?_unique {α : Type} (p : α → Bool) :
    ∀ (l : List α) (a : α), a ∈ l → p a = true →
      (∀ x ∈ l, p x = true → x = a) → l.find? p = some a := by
  intro l
  induction l with
  | nil => intro a ha; cases ha
  | cons x t ih =>
    intro a ha hpa huniq
    by_cases hx : p x = true
    · rw [List.find?_cons_of_pos _ hx]
      rw [huniq x (by simp) hx]
    · rw [List.find?_cons_of_neg _ (by simpa using hx)]
      have hat : a ∈ t := by
        rcases List.mem_cons.mp ha with rfl | h
        · exact absurd hpa hx
        · exact h
      exact ih a hat hpa (fun y hy => huniq y (by simp [hy]))

theorem contains_unique (P : Packages) (hwf : RangesWF P) (pi : Nat)
    (j1 j2 : Nat) (hj1 : j1 < P.packages.length) (hj2 : j2 < P.packages.length)
    (hc1 : P.rStart j1 ≤ pi ∧ pi < P.rEnd j1)
    (hc2 : P.rStart j2 ≤ pi ∧ pi < P.rEnd j2) : j1 = j2 := by
  by_contra hne
  rcases Nat.lt_or_ge j1 j2 with h | h
  · have : P.rEnd j1 ≤ P.rStart j2 := by
      rw [rEnd_eq_rStart_succ P j1 (by omega)]
      exact rStart_mono P hwf (j1 + 1) j2 (by omega) hj2
    omega
  · have hlt : j2 < j1 := by omega
    have : P.rEnd j2 ≤ P.rStart j1 := by
      rw [rEnd_eq_rStart_succ P j2 (by omega)]
      exact rStart_mono P hwf (j2 + 1) j1 (by omega) hj1
    omega

theorem linearPkgScan_eq (P : Packages) (hwf : RangesWF P) (pi j : Nat)
    (hj : j < P.packages.length) (hc : P.rStart j ≤ pi ∧ pi < P.rEnd j) :
    linearPkgScan P pi = some j := by
  unfold linearPkgScan
  apply find?_unique
  · exact List.mem_range.mpr hj
  · simp only [decide_eq_true_eq]
    exact hc
  · intro x hx hpx
    simp only [decide_eq_true_eq] at hpx
    exact contains_unique P hwf pi x j (List.mem_range.mp hx) hj hpx hc

/-- The claim example: 4 packages with payload-range boundaries
[0, 3, 3, 8, 10] over 10 payloads. -/
def exPackages : Packages :=
  ⟨[⟨[], [], 0, .neutral⟩, ⟨[], [], 3, .neutral⟩,
    ⟨[], [], 3, .neutral⟩, ⟨[], [], 8, .neutral⟩],
   List.replicate 10 ⟨[], [], []⟩⟩

theorem exPackages_wf : RangesWF exPackages := by
  refine ⟨by decide, by decide, by decide, by decide⟩

/-- C8: under the range invariant, for every payload index in range and for
every interpolation guess function (the f32 expression of the source is
abstracted; the `.min` clamp of the source is modelled exactly, and the
proof shows correctness does not depend on the guess), the interpolation
search terminates with the unique package whose range contains the index,
agreeing with the linear reference scan; with boundaries [0,3,3,8,10],
index 3 yields package 2 and index 9 yields package 3. -/
theorem c8_pkg_index_from_payload_index :
    (∀ (P : Packages) (interp : Nat → Nat → Nat → Nat) (pi : Nat),
      RangesWF P → pi < P.payloads.length →
      ∃ j, pkg_index_from_payload_index P interp pi = some j ∧
        linearPkgScan P pi = some j ∧
        P.rStart j ≤ pi ∧ pi < P.rEnd j) ∧
    (∀ interp : Nat → Nat → Nat → Nat,
      pkg_index_from_payload_index exPackages interp 3 = some 2) ∧
    (∀ interp : Nat → Nat → Nat → Nat,
      pkg_index_from_payload_index exPackages interp 9 = some 3) := by
  have main : ∀ (P : Packages) (interp : Nat → Nat → Nat → Nat) (pi : Nat),
      RangesWF P → pi < P.payloads.length →
      ∃ j, pkg_index_from_payload_index P interp pi = some j ∧
        linearPkgScan P pi = some j ∧
        P.rStart j ≤ pi ∧ pi < P.rEnd j := by
    intro P interp pi hwf hpi
    unfold pkg_index_from_payload_index
    rw [if_neg hwf.1]
    have hlen : 0 < P.packages.length := List.length_pos.mpr hwf.1
    have h0 : P.rStart 0 ≤ pi := by
      show (P.payload_range_from_pkg_index 0).1 ≤ pi
      show P.offsetAt 0 ≤ pi
      rw [hwf.2.1]
      omega
    have hend : pi < P.rEnd (P.packages.length - 1) := by
      rw [rEnd_last]
      exact hpi
    obtain ⟨j, hj1, hjmin, hjmax, hjc1, hjc2⟩ :=
      pkgSearchAux_correct P interp pi hwf P.packages.length 0
        (P.packages.length - 1) (by omega) (by omega) (by omega) h0 hend
    exact ⟨j, hj1, linearPkgScan_eq P hwf pi j (by omega) ⟨hjc1, hjc2⟩, hjc1, hjc2⟩
  refine ⟨main, ?_, ?_⟩
  · intro interp
    obtain ⟨j, h1, h2, _⟩ := main exPackages interp 3 exPackages_wf (by decide)
    have hl : linearPkgScan exPackages 3 = some 2 := by decide
    rw [hl] at h2
    cases h2
    exact h1
  · intro interp
    obtain ⟨j, h1, h2, _⟩ := main exPackages interp 9 exPackages_wf (by decide)
    have hl : linearPkgScan exPackages 9 = some 3 := by decide
    rw [hl] at h2
    cases h2
    exact h1

/-- C8 witness: the lookup applied with a concrete division-based guess
function at payload index 3 of the example boundaries. -/
theorem c8_pkg_index_from_payload_index_witness :
    ∃ j, pkg_index_from_payload_index exPackages
        (fun off cnt pkgs => off * pkgs / cnt) 3 = some j ∧
      linearPkgScan exPackages 3 = some j ∧
      exPackages.rStart j ≤ 3 ∧ 3 < exPackages.rEnd j :=
  c8_pkg_index_from_payload_index.1 exPackages
    (fun off cnt pkgs => off * pkgs / cnt) 3 exPackages_wf (by decide)

/-! ## Filesystem model for the install engine (src/install.rs)

The filesystem is an association list from path text to file content; only
regular files are modelled, so `create_dir_all` is a no-op, and the
advisory `.lock` files (cross-process mutual exclusion) are no-ops in this
single-process model.  External effects — the network download, the
streaming hash, and the zip decoder — are parameters of the modelled
operations, and an event list records download and extraction actions. -/

/-- Association-list filesystem. -/
abbrev FS := List (Str × Str)

/-- Lookup of a file content by path. -/
def fsGet : FS → Str → Option Str
  | [], _ => none
  | (q, c) :: t, p => if q = p then some c else fsGet t p

/-- Model of `fs::remove_file` (best-effort form; callers that propagate
the missing-file error check presence first). -/
def fsRemove : FS → Str → FS
  | [], _ => []
  | (q, c) :: t, p => if q = p then fsRemove t p else (q, c) :: fsRemove t p

/-- Model of creating or truncating a file with the given content. -/
def fsSet (fs : FS) (p : Str) (c : Str) : FS := (p, c) :: fsRemove fs p

/-- Appending to an open file handle. -/
def fsApp (fs : FS) (p : Str) (s : Str) : FS :=
  fsSet fs p (((fsGet fs p).getD []) ++ s)

theorem fsGet_remove (fs : FS) (p q : Str) :
    fsGet (fsRemove fs p) q = if q = p then none else fsGet fs q := by
  induction fs with
  | nil => by_cases h : q = p <;> simp [fsRemove, fsGet, h]
  | cons kv t ih =>
    obtain ⟨k, c⟩ := kv
    by_cases hk : k = p <;> by_cases hq : q = p <;> by_cases hkq : k = q <;>
      simp_all [fsRemove, fsGet]

theorem fsGet_set (fs : FS) (p c q : Str) :
    fsGet (fsSet fs p c) q = if p = q then some c else fsGet fs q := by
  simp only [fsSet, fsGet]
  by_cases h : p = q
  · simp [h]
  · rw [if_neg h, fsGet_remove, if_neg (fun hh => h hh.symm), if_neg h]

/-- Model of `Path::join`: a relative component is appended after a
separator; an absolute right-hand side replaces the base, as in Rust. -/
def pathJoin (base rel : Str) : Str :=
  if rel.head? = some '/' then rel else base ++ '/' :: rel

/-- Model of `str::strip_prefix` (renamed for this development). -/
def dropStart (pat s : Str) : Option Str :=
  if begins s pat then some (s.drop pat.length) else none

/-- Observable actions of the install engine. -/
inductive Ev
  | fetched (url : Str)
  | extracted
deriving DecidableEq

/-- Error outcomes of the modelled install operations. -/
inductive IErr
  | unknownUrlKind
  | downloadFailed
  | lockParse (e : LockParseErr)
  | readCurrentFailed
  | zipOpenFailed
  | cabUnreachable
  | dotComponent
  | noRootDir
  | rootDirChanged
deriving DecidableEq

/-- The outcome of a stateful install step: success, a propagated error, or
the hard process termination of the hash-mismatch path.  Every outcome
carries the filesystem and the event log at that point. -/
inductive Out (α : Type)
  | ok (fs : FS) (ev : List Ev) (a : α)
  | err (fs : FS) (ev : List Ev) (e : IErr)
  | fatal (fs : FS) (ev : List Ev)
deriving DecidableEq

/-- Sequencing of outcomes: errors and the fatal exit short-circuit. -/
def Out.bind {α β : Type} : Out α → (FS → List Ev → α → Out β) → Out β
  | .ok fs ev a, f => f fs ev a
  | .err fs ev e, _ => .err fs ev e
  | .fatal fs ev, _ => .fatal fs ev

theorem Out.bind_ok {α β : Type} (x : Out α) (f : FS → List Ev → α → Out β)
    (fs : FS) (ev : List Ev) (b : β) (h : x.bind f = .ok fs ev b) :
    ∃ fs1 ev1 a, x = .ok fs1 ev1 a ∧ f fs1 ev1 a = .ok fs ev b := by
  cases x with
  | ok fs1 ev1 a => exact ⟨fs1, ev1, a, rfl, h⟩
  | err fs1 ev1 e => cases h
  | fatal fs1 ev1 => cases h

/-! ## Content-addressed fetch cache (src/install.rs) -/

/-- The file name of a cache entry: `<sha-hex>-<basename>`. -/
def cacheBasename (sha256 : Sha256) (name : Str) : Str :=
  sha256_to_hex sha256 ++ '-' :: name

/-- Model of `cache_entry_path`: `<cache_dir>/<sha-hex>-<basename>`. -/
def cache_entry_path (cache_dir : Str) (sha256 : Sha256) (name : Str) : Str :=
  pathJoin cache_dir (cacheBasename sha256 name)

/-- Model of `fetch_payload` (src/install.rs).  The advisory lock is a
no-op in this single-process model; `download` stands for the network
(`fetch` in src/manifest.rs streams the URL to the `.fetching` path) and
`hashOf` for the streaming hash of the downloaded bytes.  An existing cache
entry short-circuits with no download and no re-verification; a hash
mismatch terminates the process (`std::process::exit(0xff)`), leaving the
`.fetching` file and never creating the cache entry; otherwise the
`.fetching` file is renamed onto the cache path. -/
def fetch_payload (download : Str → Option Str) (hashOf : Str → Sha256)
    (sha256 : Sha256) (url_decoded : Str) (cache_path : Str)
    (fs : FS) (ev : List Ev) : Out Unit :=
  if (fsGet fs cache_path).isSome then .ok fs ev ()
  else
    match download url_decoded with
    | none => .err fs (ev ++ [.fetched url_decoded]) .downloadFailed
    | some content =>
      let fetch_path := cache_path ++ str (".fetching")
      let fs1 := fsSet fs fetch_path content
      if hashOf content ≠ sha256 then .fatal fs1 (ev ++ [.fetched url_decoded])
      else
        .ok (fsSet (fsRemove fs1 fetch_path) cache_path content)
          (ev ++ [.fetched url_decoded]) ()

/-- C5: fetch-cache behaviour.  An existing cache entry returns success at
once with no download event and no state change; otherwise the download is
written to `<path>.fetching` and renamed onto the cache path exactly when
the computed hash equals the expected one; on a mismatch the outcome is the
fatal process termination (not a normal error return) and the cache entry
is never created. -/
theorem c5_fetch_payload_cache (download : Str → Option Str)
    (hashOf : Str → Sha256) (sha : Sha256) (url cache_path : Str) :
    (∀ (fs : FS) (ev : List Ev), (fsGet fs cache_path).isSome →
      fetch_payload download hashOf sha url cache_path fs ev = .ok fs ev ()) ∧
    (∀ (fs : FS) (ev : List Ev) (content : Str),
      fsGet fs cache_path = none → download url = some content →
      hashOf content = sha →
      fetch_payload download hashOf sha url cache_path fs ev =
        .ok (fsSet (fsRemove (fsSet fs (cache_path ++ str (".fetching")) content)
              (cache_path ++ str (".fetching"))) cache_path content)
          (ev ++ [.fetched url]) ()) ∧
    (∀ (fs : FS) (ev : List Ev) (content : Str),
      fsGet fs cache_path = none → download url = some content →
      hashOf content ≠ sha →
      fetch_payload download hashOf sha url cache_path fs ev =
        .fatal (fsSet fs (cache_path ++ str (".fetching")) content)
          (ev ++ [.fetched url]) ∧
      fsGet (fsSet fs (cache_path ++ str (".fetching")) content) cache_path =
        none) := by
  have hne : ∀ s : Str, cache_path ++ str (".fetching") ≠ cache_path := by
    intro _ h
    have := congrArg List.length h
    simp [str] at this
  refine ⟨?_, ?_, ?_⟩
  · intro fs ev hsome
    unfold fetch_payload
    rw [if_pos hsome]
  · intro fs ev content hnone hdl hhash
    unfold fetch_payload
    rw [hnone]
    simp only [Option.isSome_none, Bool.false_eq_true, if_false, hdl]
    rw [if_neg (by simp [hhash])]
  · intro fs ev content hnone hdl hhash
    constructor
    · unfold fetch_payload
      rw [hnone]
      simp only [Option.isSome_none, Bool.false_eq_true, if_false, hdl]
      rw [if_pos hhash]
    · rw [fsGet_set, if_neg (hne content), hnone]

/-! ## Crash recovery (start_install, src/install.rs) -/

/-- The file paths named on lines of a stale manifest that start with
"new "; the first line (the cache basename header) is skipped, as in the
source, and empty lines are ignored. -/
def manifestNewPaths (content : Str) : List Str :=
  match linesOf content with
  | [] => []
  | _ :: rest => rest.filterMap (fun l =>
      if l = [] then none else dropStart (str ("new ")) l)

/-- Model of `start_install` (src/install.rs).  If a stale `current`
manifest is readable, every path on a "new " line after the header is
removed best-effort, "add " lines are left alone, and the stale manifest
itself is removed; otherwise nothing happens (directory creation is
invisible in this file-map model). -/
def start_install (current_install_path : Str) (fs : FS) : FS :=
  match fsGet fs current_install_path with
  | none => fs
  | some content =>
      fsRemove ((manifestNewPaths content).foldl fsRemove fs) current_install_path

theorem fsGet_foldl_remove (ps : List Str) (fs : FS) (p : Str) :
    fsGet (ps.foldl fsRemove fs) p = if p ∈ ps then none else fsGet fs p := by
  induction ps generalizing fs with
  | nil => simp
  | cons q t ih =>
    simp only [List.foldl_cons, ih, fsGet_remove, List.mem_cons]
    by_cases h1 : p ∈ t
    · simp [h1]
    · by_cases h2 : p = q <;> simp [h1, h2]

/-- C4: crash recovery frame effect.  Without a stale `current` manifest
start_install changes nothing; with one, the resulting filesystem differs
from the input exactly at the paths named on "new " lines and at the stale
manifest path, all of which become absent — every other path, including
those on "add " lines, keeps its exact prior content, and a "new " path
missing from the filesystem is not an error.  The example manifest listing
new /a, new /b, add /c names exactly /a and /b for deletion. -/
theorem c4_start_install_frame (cip : Str) (fs : FS) :
    (fsGet fs cip = none → start_install cip fs = fs) ∧
    (∀ content : Str, fsGet fs cip = some content →
      ∀ p : Str, fsGet (start_install cip fs) p =
        if p ∈ manifestNewPaths content ∨ p = cip then none else fsGet fs p) ∧
    manifestNewPaths (str ("somecache.vsix\nnew /a\nnew /b\nadd /c\n")) =
      [str ("/a"), str ("/b")] := by
  refine ⟨?_, ?_, by decide⟩
  · intro h
    unfold start_install
    rw [h]
  · intro content h p
    unfold start_install
    rw [h]
    simp only [fsGet_remove, fsGet_foldl_remove]
    by_cases h1 : p = cip
    · simp [h1]
    · by_cases h2 : p ∈ manifestNewPaths content <;> simp [h1, h2]

/-- C4 witness: a stale manifest listing new /a, new /b, add /c with /a,
/b, /c all present leaves /a and /b deleted, /c unchanged, and the stale
manifest removed. -/
theorem c4_start_install_frame_witness :
    fsGet (start_install (str ("/i/install/current"))
        [(str ("/i/install/current"), str ("somecache.vsix\nnew /a\nnew /b\nadd /c\n")),
         (str ("/a"), str ("A")), (str ("/b"), str ("B")), (str ("/c"), str ("C"))])
      (str ("/a")) = none ∧
    fsGet (start_install (str ("/i/install/current"))
        [(str ("/i/install/current"), str ("somecache.vsix\nnew /a\nnew /b\nadd /c\n")),
         (str ("/a"), str ("A")), (str ("/b"), str ("B")), (str ("/c"), str ("C"))])
      (str ("/b")) = none ∧
    fsGet (start_install (str ("/i/install/current"))
        [(str ("/i/install/current"), str ("somecache.vsix\nnew /a\nnew /b\nadd /c\n")),
         (str ("/a"), str ("A")), (str ("/b"), str ("B")), (str ("/c"), str ("C"))])
      (str ("/c")) = some (str ("C")) ∧
    fsGet (start_install (str ("/i/install/current"))
        [(str ("/i/install/current"), str ("somecache.vsix\nnew /a\nnew /b\nadd /c\n")),
         (str ("/a"), str ("A")), (str ("/b"), str ("B")), (str ("/c"), str ("C"))])
      (str ("/i/install/current")) = none := by
  have h := (c4_start_install_frame (str ("/i/install/current"))
      [(str ("/i/install/current"), str ("somecache.vsix\nnew /a\nnew /b\nadd /c\n")),
       (str ("/a"), str ("A")), (str ("/b"), str ("B")), (str ("/c"), str ("C"))]).2.1
    (str ("somecache.vsix\nnew /a\nnew /b\nadd /c\n")) rfl
  refine ⟨?_, ?_, ?_, ?_⟩ <;> rw [h] <;> decide

/-- C5 witness: the three clauses at concrete states and functions. -/
theorem c5_fetch_payload_cache_witness :
    fetch_payload (fun _ => some (str ("DATA"))) (fun _ => List.replicate 32 0)
        (List.replicate 32 0) (str ("https://x/a.vsix")) (str ("/c/e"))
        [(str ("/c/e"), str ("old"))] [] =
      .ok [(str ("/c/e"), str ("old"))] [] () ∧
    fetch_payload (fun _ => some (str ("DATA"))) (fun _ => List.replicate 32 0)
        (List.replicate 32 1) (str ("https://x/a.vsix")) (str ("/c/e")) [] [] =
      .fatal (fsSet [] (str ("/c/e") ++ str (".fetching")) (str ("DATA")))
        [.fetched (str ("https://x/a.vsix"))] := by
  constructor
  · exact (c5_fetch_payload_cache (fun _ => some (str ("DATA")))
      (fun _ => List.replicate 32 0) (List.replicate 32 0)
      (str ("https://x/a.vsix")) (str ("/c/e"))).1
      [(str ("/c/e"), str ("old"))] [] (by decide)
  · exact ((c5_fetch_payload_cache (fun _ => some (str ("DATA")))
      (fun _ => List.replicate 32 0) (List.replicate 32 1)
      (str ("https://x/a.vsix")) (str ("/c/e"))).2.2
      [] [] (str ("DATA")) rfl rfl (by decide)).1

/-! ## Zip extraction (src/zip_extract.rs) -/

/-- An archive entry as the zip crate presents it: a name and the bytes
behind it (modelled as text). -/
structure ZipEntry where
  name : Str
  content : Str
deriving DecidableEq

/-- The two archive flavours of `extract_zip_to_dir`. -/
inductive ZipKind
  | vsix
  | zip
deriving DecidableEq

/-- The kind-specific entry-name filter of `extract_zip_to_dir`. -/
def zipPrefixOf : ZipKind → Str
  | .vsix => str ("Contents/")
  | .zip => []

/-- Model of `percent_decode_str`: a percent sign followed by two hex
digits becomes the encoded byte, anything else is copied through. -/
def percentDecode : Str → Str
  | '%' :: h1 :: h2 :: rest =>
    match nibbleFromHex h1, nibbleFromHex h2 with
    | some a, some b => Char.ofNat (16 * a + b) :: percentDecode rest
    | _, _ => '%' :: percentDecode (h1 :: h2 :: rest)
  | c :: rest => c :: percentDecode rest
  | [] => []

/-- Backslash normalisation applied to every raw entry name. -/
def normSeps (s : Str) : Str := s.map (fun c => if c = '\\' then '/' else c)

/-- The raw-name dot check of `extract_zip_to_dir`: an entry whose
normalised name is non-empty, does not start with a slash, and has a `.`
or `..` slash-component makes the extraction bail. -/
def badDotEntry (e : ZipEntry) : Bool :=
  let filename := normSeps e.name
  ¬ (filename = [] ∨ filename.head? = some '/') &&
    (splitCh '/' filename).any (fun part => part == str (".") || part == str (".."))

/-- Model of `sub_path.strip_prefix(slash).unwrap_or(sub_path)`: at most
one leading slash is removed. -/
def stripOneSlash (s : Str) : Str :=
  if s.head? = some '/' then s.drop 1 else s

/-- What the per-entry body of `extract_zip_to_dir` decides: skip the
entry, abort the extraction, or write a file at an install path with an
updated root-directory state. -/
inductive EStep
  | skip
  | fail (er : IErr)
  | put (last2 : Option Str) (install_path : Str)
deriving DecidableEq

/-- The per-entry decision of `extract_zip_to_dir` (src/zip_extract.rs):
backslash normalisation, the empty/absolute skip, the dot-component check
on the raw name, the kind-specific name filter, the directory skip,
percent-decoding, and optional root-directory stripping with the
same-root check. -/
def extractStep (install_dir : Str) (kind : ZipKind) (strip_root_dir : Bool)
    (e : ZipEntry) (last_root : Option Str) : EStep :=
  let filename := normSeps e.name
  if filename = [] ∨ filename.head? = some '/' then .skip
  else if (splitCh '/' filename).any
      (fun part => part == str (".") || part == str (".."))  then
    .fail .dotComponent
  else if ¬ begins filename (zipPrefixOf kind) then .skip
  else if filename.getLast? = some '/' then .skip
  else
    let sub_path_decoded := percentDecode (filename.drop (zipPrefixOf kind).length)
    match strip_root_dir with
    | false =>
      .put last_root (pathJoin install_dir (stripOneSlash sub_path_decoded))
    | true =>
      match findSub ['/'] sub_path_decoded with
      | none => .fail .noRootDir
      | some sep_pos =>
        let root_dir := sub_path_decoded.take sep_pos
        match last_root with
        | some last =>
          if last ≠ root_dir then .fail .rootDirChanged
          else
            .put (some root_dir)
              (pathJoin install_dir (stripOneSlash (sub_path_decoded.drop sep_pos)))
        | none =>
          .put (some root_dir)
            (pathJoin install_dir (stripOneSlash (sub_path_decoded.drop sep_pos)))

/-- Model of `extract_zip_to_dir` (src/zip_extract.rs).  Entries are
processed in order with the last seen root directory as state; each
extracted file appends an add/new manifest line (add when the install path
already exists) to the open manifest file and writes the file through the
file map. -/
def extract_zip_to_dir (install_dir : Str) (kind : ZipKind)
    (strip_root_dir : Bool) (manifest_path : Str) :
    List ZipEntry → Option Str → FS → List Ev → Out Unit
  | [], _, fs, ev => .ok fs ev ()
  | e :: rest, last_root, fs, ev =>
    match extractStep install_dir kind strip_root_dir e last_root with
    | .fail er => .err fs ev er
    | .skip =>
      extract_zip_to_dir install_dir kind strip_root_dir manifest_path
        rest last_root fs ev
    | .put last2 install_path =>
      let line := (if (fsGet fs install_path).isSome then str ("add ")
          else str ("new ")) ++ install_path ++ ['\n']
      extract_zip_to_dir install_dir kind strip_root_dir manifest_path
        rest last2 (fsSet (fsApp fs manifest_path line) install_path e.content) ev

/-! ## Path resolution, for stating where extracted files land -/

/-- Resolve slash-components against a reversed stack of kept components:
empty and `.` components vanish, `..` pops (failing on underflow), and
anything else is pushed. -/
def resolveComps : List Str → List Str → Option (List Str)
  | acc, [] => some acc
  | acc, c :: rest =>
    if c = [] ∨ c = str (".") then resolveComps acc rest
    else if c = str ("..") then
      match acc with
      | [] => none
      | _ :: t => resolveComps t rest
    else resolveComps (c :: acc) rest

/-- The resolved component list of a path, outermost first; `none` when a
`..` climbs above the start of the path. -/
def resolvePath (p : Str) : Option (List Str) :=
  (resolveComps [] (splitCh '/' p)).map List.reverse

/-- The relative path under the install directory that
`extract_zip_to_dir` computes for an entry it extracts; `none` for entries
that are skipped or make the extraction fail.  The root-consistency state
does not influence the path itself. -/
def entryRelPath (kind : ZipKind) (strip_root_dir : Bool) (e : ZipEntry) :
    Option Str :=
  let filename := normSeps e.name
  if filename = [] ∨ filename.head? = some '/' then none
  else if (splitCh '/' filename).any
      (fun part => part == str (".") || part == str (".."))  then none
  else if ¬ begins filename (zipPrefixOf kind) then none
  else if filename.getLast? = some '/' then none
  else
    let sub_path_decoded := percentDecode (filename.drop (zipPrefixOf kind).length)
    match strip_root_dir with
    | false => some (stripOneSlash sub_path_decoded)
    | true =>
      match findSub ['/'] sub_path_decoded with
      | none => none
      | some sep_pos => some (stripOneSlash (sub_path_decoded.drop sep_pos))

/-- The root directory `extract_zip_to_dir` would strip from an entry it
extracts (only meaningful when stripping is on). -/
def entryRootOf (kind : ZipKind) (e : ZipEntry) : Option Str :=
  let filename := normSeps e.name
  if filename = [] ∨ filename.head? = some '/' then none
  else if (splitCh '/' filename).any
      (fun part => part == str (".") || part == str (".."))  then none
  else if ¬ begins filename (zipPrefixOf kind) then none
  else if filename.getLast? = some '/' then none
  else
    let sub_path_decoded := percentDecode (filename.drop (zipPrefixOf kind).length)
    match findSub ['/'] sub_path_decoded with
    | none => none
    | some sep_pos => some (sub_path_decoded.take sep_pos)

theorem resolveComps_mono (cs : List Str) :
    ∀ (s acc r : List Str), resolveComps s cs = some r →
      resolveComps (s ++ acc) cs = some (r ++ acc) := by
  induction cs with
  | nil =>
    intro s acc r h
    simp only [resolveComps] at h ⊢
    cases h
    rfl
  | cons c rest ih =>
    intro s acc r h
    simp only [resolveComps] at h ⊢
    by_cases h1 : c = [] ∨ c = str (".")
    · rw [if_pos h1] at h ⊢
      exact ih s acc r h
    · rw [if_neg h1] at h ⊢
      by_cases h2 : c = str ("..")
      · rw [if_pos h2] at h ⊢
        cases s with
        | nil => cases h
        | cons x t =>
          simp only [List.cons_append]
          exact ih t acc r h
      · rw [if_neg h2] at h ⊢
        have := ih (c :: s) acc r h
        simpa using this

theorem resolveComps_append (cs1 cs2 : List Str) :
    ∀ s : List Str, resolveComps s (cs1 ++ cs2) =
      match resolveComps s cs1 with
      | some m => resolveComps m cs2
      | none => none := by
  induction cs1 with
  | nil => intro s; simp [resolveComps]
  | cons c rest ih =>
    intro s
    simp only [List.cons_append, resolveComps, List.append_eq]
    by_cases h1 : c = [] ∨ c = str (".")
    · rw [if_pos h1, if_pos h1, ih]
    · rw [if_neg h1, if_neg h1]
      by_cases h2 : c = str ("..")
      · rw [if_pos h2, if_pos h2]
        cases s with
        | nil => rfl
        | cons x t => exact ih t
      · rw [if_neg h2, if_neg h2, ih]

theorem splitCh_append_sep (sep : Char) (a b : Str) :
    splitCh sep (a ++ sep :: b) = splitCh sep a ++ splitCh sep b := by
  induction a with
  | nil => simp [splitCh]
  | cons c t ih =>
    simp only [List.cons_append, splitCh, List.append_eq]
    by_cases h : c = sep
    · rw [if_pos h, if_pos h, ih]
      rfl
    · rw [if_neg h, if_neg h, ih]
      cases hs : splitCh sep t with
      | nil =>
        exact absurd hs (splitCh_ne_nil sep t)
      | cons p ps => rfl

/-- Resolution of a joined path: when the relative part is not absolute,
the join resolves to the components of the base followed by those of the
relative part. -/
theorem resolvePath_pathJoin (dir rel : Str) (dcomps rcomps : List Str)
    (hdir : resolvePath dir = some dcomps)
    (hrel : resolvePath rel = some rcomps)
    (habs : rel.head? ≠ some '/') :
    resolvePath (pathJoin dir rel) = some (dcomps ++ rcomps) := by
  unfold pathJoin
  rw [if_neg habs]
  unfold resolvePath at hdir hrel ⊢
  cases hd : resolveComps [] (splitCh '/' dir) with
  | none => rw [hd] at hdir; cases hdir
  | some md =>
    rw [hd] at hdir
    cases hr : resolveComps [] (splitCh '/' rel) with
    | none => rw [hr] at hrel; cases hrel
    | some mr =>
      rw [hr] at hrel
      have h1 : resolveComps md (splitCh '/' rel) = some (mr ++ md) := by
        have := resolveComps_mono (splitCh '/' rel) [] md mr hr
        simpa using this
      rw [splitCh_append_sep, resolveComps_append, hd]
      simp only [h1, Option.map_some']
      have hd2 : dcomps = md.reverse := by
        simpa using hdir.symm
      have hr2 : rcomps = mr.reverse := by
        simpa using hrel.symm
      rw [hd2, hr2]
      simp

theorem extractStep_put_rel (d : Str) (k : ZipKind) (strip : Bool) (e : ZipEntry)
    (last last2 : Option Str) (ip : Str)
    (h : extractStep d k strip e last = .put last2 ip) :
    ∃ rel, entryRelPath k strip e = some rel ∧ ip = pathJoin d rel := by
  simp only [extractStep] at h
  simp only [entryRelPath]
  by_cases h1 : normSeps e.name = [] ∨ (normSeps e.name).head? = some '/'
  · rw [if_pos h1] at h; cases h
  · rw [if_neg h1] at h
    rw [if_neg h1]
    by_cases h2 : (splitCh '/' (normSeps e.name)).any
        (fun part => part == str (".") || part == str (".."))  = true
    · rw [if_pos h2] at h; cases h
    · rw [if_neg h2] at h
      rw [if_neg h2]
      by_cases h3 : ¬ begins (normSeps e.name) (zipPrefixOf k) = true
      · rw [if_pos h3] at h; cases h
      · rw [if_neg h3] at h
        rw [if_neg h3]
        by_cases h4 : (normSeps e.name).getLast? = some '/'
        · rw [if_pos h4] at h; cases h
        · rw [if_neg h4] at h
          rw [if_neg h4]
          cases strip with
          | false =>
            simp only [] at h ⊢
            injection h with hl hip
            exact ⟨_, rfl, hip.symm⟩
          | true =>
            simp only [] at h ⊢
            cases hf : findSub ['/']
                (percentDecode ((normSeps e.name).drop (zipPrefixOf k).length)) with
            | none => rw [hf] at h; cases h
            | some sep_pos =>
              rw [hf] at h
              simp only [] at h
              cases last with
              | none =>
                simp only [] at h
                injection h with hl hip
                exact ⟨_, rfl, hip.symm⟩
              | some l =>
                simp only [] at h
                by_cases h5 : l ≠ (percentDecode
                    ((normSeps e.name).drop (zipPrefixOf k).length)).take sep_pos
                · rw [if_pos h5] at h; cases h
                · rw [if_neg h5] at h
                  injection h with hl hip
                  exact ⟨_, rfl, hip.symm⟩

theorem extractStep_dot (d : Str) (k : ZipKind) (strip : Bool) (e : ZipEntry)
    (last : Option Str) (h : badDotEntry e = true) :
    extractStep d k strip e last = .fail .dotComponent := by
  simp only [badDotEntry, Bool.and_eq_true, decide_eq_true_eq] at h
  obtain ⟨h1, h2⟩ := h
  simp only [extractStep]
  rw [if_neg h1, if_pos h2]

theorem extractStep_skip_root (d : Str) (k : ZipKind) (e : ZipEntry)
    (last : Option Str) (h : extractStep d k true e last = .skip) :
    entryRootOf k e = none := by
  simp only [extractStep] at h
  simp only [entryRootOf]
  by_cases h1 : normSeps e.name = [] ∨ (normSeps e.name).head? = some '/'
  · rw [if_pos h1]
  · rw [if_neg h1] at h
    rw [if_neg h1]
    by_cases h2 : (splitCh '/' (normSeps e.name)).any
        (fun part => part == str (".") || part == str (".."))  = true
    · rw [if_pos h2] at h; cases h
    · rw [if_neg h2] at h
      rw [if_neg h2]
      by_cases h3 : ¬ begins (normSeps e.name) (zipPrefixOf k) = true
      · rw [if_pos h3]
      · rw [if_neg h3] at h
        rw [if_neg h3]
        by_cases h4 : (normSeps e.name).getLast? = some '/'
        · rw [if_pos h4]
        · rw [if_neg h4] at h
          rw [if_neg h4]
          cases hf : findSub ['/']
              (percentDecode ((normSeps e.name).drop (zipPrefixOf k).length)) with
          | none => rw [hf] at h
          | some sep_pos =>
            rw [hf] at h
            simp only [] at h
            cases last with
            | none => simp only [] at h; cases h
            | some l =>
              simp only [] at h
              by_cases h5 : l ≠ (percentDecode
                  ((normSeps e.name).drop (zipPrefixOf k).length)).take sep_pos
              · rw [if_pos h5] at h; cases h
              · rw [if_neg h5] at h; cases h

theorem extractStep_put_root_some (d : Str) (k : ZipKind) (e : ZipEntry)
    (r : Str) (last2 : Option Str) (ip : Str)
    (h : extractStep d k true e (some r) = .put last2 ip) :
    last2 = some r ∧ ∀ rd : Str, entryRootOf k e = some rd → rd = r := by
  simp only [extractStep] at h
  simp only [entryRootOf]
  by_cases h1 : normSeps e.name = [] ∨ (normSeps e.name).head? = some '/'
  · rw [if_pos h1] at h; cases h
  · rw [if_neg h1] at h
    rw [if_neg h1]
    by_cases h2 : (splitCh '/' (normSeps e.name)).any
        (fun part => part == str (".") || part == str (".."))  = true
    · rw [if_pos h2] at h; cases h
    · rw [if_neg h2] at h
      rw [if_neg h2]
      by_cases h3 : ¬ begins (normSeps e.name) (zipPrefixOf k) = true
      · rw [if_pos h3] at h; cases h
      · rw [if_neg h3] at h
        rw [if_neg h3]
        by_cases h4 : (normSeps e.name).getLast? = some '/'
        · rw [if_pos h4] at h; cases h
        · rw [if_neg h4] at h
          rw [if_neg h4]
          cases hf : findSub ['/']
              (percentDecode ((normSeps e.name).drop (zipPrefixOf k).length)) with
          | none => rw [hf] at h; cases h
          | some sep_pos =>
            rw [hf] at h
            simp only [] at h ⊢
            by_cases h5 : r ≠ (percentDecode
                ((normSeps e.name).drop (zipPrefixOf k).length)).take sep_pos
            · rw [if_pos h5] at h; cases h
            · rw [if_neg h5] at h
              injection h with hl hip
              rw [not_not] at h5
              constructor
              · rw [← hl, ← h5]
              · intro rd hrd
                injection hrd with hrd2
                rw [← hrd2, ← h5]

theorem extractStep_put_root_none (d : Str) (k : ZipKind) (e : ZipEntry)
    (last2 : Option Str) (ip : Str)
    (h : extractStep d k true e none = .put last2 ip) :
    ∃ rd : Str, entryRootOf k e = some rd ∧ last2 = some rd := by
  simp only [extractStep] at h
  simp only [entryRootOf]
  by_cases h1 : normSeps e.name = [] ∨ (normSeps e.name).head? = some '/'
  · rw [if_pos h1] at h; cases h
  · rw [if_neg h1] at h
    rw [if_neg h1]
    by_cases h2 : (splitCh '/' (normSeps e.name)).any
        (fun part => part == str (".") || part == str (".."))  = true
    · rw [if_pos h2] at h; cases h
    · rw [if_neg h2] at h
      rw [if_neg h2]
      by_cases h3 : ¬ begins (normSeps e.name) (zipPrefixOf k) = true
      · rw [if_pos h3] at h; cases h
      · rw [if_neg h3] at h
        rw [if_neg h3]
        by_cases h4 : (normSeps e.name).getLast? = some '/'
        · rw [if_pos h4] at h; cases h
        · rw [if_neg h4] at h
          rw [if_neg h4]
          cases hf : findSub ['/']
              (percentDecode ((normSeps e.name).drop (zipPrefixOf k).length)) with
          | none => rw [hf] at h; cases h
          | some sep_pos =>
            rw [hf] at h
            simp only [] at h
            injection h with hl hip
            exact ⟨_, rfl, hl.symm⟩

/-- Unfolding of the extraction walk at a cons cell, split on the
per-entry decision. -/
theorem extract_cons (d : Str) (k : ZipKind) (strip : Bool) (m : Str)
    (e : ZipEntry) (rest : List ZipEntry) (last : Option Str) (fs : FS)
    (ev : List Ev) :
    extract_zip_to_dir d k strip m (e :: rest) last fs ev =
      match extractStep d k strip e last with
      | .fail er => .err fs ev er
      | .skip => extract_zip_to_dir d k strip m rest last fs ev
      | .put last2 install_path =>
        extract_zip_to_dir d k strip m rest last2
          (fsSet (fsApp fs m ((if (fsGet fs install_path).isSome then str ("add ")
              else str ("new ")) ++ install_path ++ ['\n'])) install_path e.content)
          ev := by
  cases h : extractStep d k strip e last <;> simp only [extract_zip_to_dir, h]

theorem extract_dot_fails (d : Str) (k : ZipKind) (strip : Bool) (m : Str)
    (entries : List ZipEntry) (hbad : ∃ e ∈ entries, badDotEntry e = true) :
    ∀ (last : Option Str) (fs : FS) (ev : List Ev),
      ∃ fsx evx er,
        extract_zip_to_dir d k strip m entries last fs ev = .err fsx evx er := by
  induction entries with
  | nil => obtain ⟨e, he, _⟩ := hbad; cases he
  | cons e rest ih =>
    intro last fs ev
    rw [extract_cons]
    by_cases hd : badDotEntry e = true
    · rw [extractStep_dot d k strip e last hd]
      exact ⟨fs, ev, .dotComponent, rfl⟩
    · have hbad2 : ∃ x ∈ rest, badDotEntry x = true := by
        obtain ⟨x, hx, hbx⟩ := hbad
        rcases List.mem_cons.mp hx with h | h
        · rw [h] at hbx; exact absurd hbx hd
        · exact ⟨x, h, hbx⟩
      cases hstep : extractStep d k strip e last with
      | fail er => exact ⟨fs, ev, er, rfl⟩
      | skip => exact ih hbad2 last fs ev
      | put last2 ip => exact ih hbad2 last2 _ ev

theorem extract_frame (d : Str) (k : ZipKind) (strip : Bool) (m : Str)
    (dcomps : List Str) (hd : resolvePath d = some dcomps)
    (entries : List ZipEntry)
    (hgood : ∀ e ∈ entries, ∀ rel : Str, entryRelPath k strip e = some rel →
      rel.head? ≠ some '/' ∧
        ∃ rcomps, rcomps ≠ [] ∧ resolvePath rel = some rcomps) :
    ∀ (last : Option Str) (fs : FS) (ev : List Ev) (fs2 : FS) (ev2 : List Ev),
      extract_zip_to_dir d k strip m entries last fs ev = .ok fs2 ev2 () →
      ∀ p : Str, fsGet fs2 p ≠ fsGet fs p →
        p = m ∨ ∃ rcomps, rcomps ≠ [] ∧ resolvePath p = some (dcomps ++ rcomps) := by
  induction entries with
  | nil =>
    intro last fs ev fs2 ev2 h p hp
    simp only [extract_zip_to_dir] at h
    injection h with h1 h2
    rw [h1] at hp
    exact absurd rfl hp
  | cons e rest ih =>
    intro last fs ev fs2 ev2 h p hp
    rw [extract_cons] at h
    have hgood2 : ∀ x ∈ rest, ∀ rel : Str, entryRelPath k strip x = some rel →
        rel.head? ≠ some '/' ∧
          ∃ rcomps, rcomps ≠ [] ∧ resolvePath rel = some rcomps :=
      fun x hx => hgood x (List.mem_cons_of_mem e hx)
    cases hstep : extractStep d k strip e last with
    | fail er => rw [hstep] at h; cases h
    | skip =>
      rw [hstep] at h
      exact ih hgood2 last fs ev fs2 ev2 h p hp
    | put last2 ip =>
      rw [hstep] at h
      simp only [] at h
      by_cases hmid : fsGet fs2 p =
          fsGet (fsSet (fsApp fs m ((if (fsGet fs ip).isSome then str ("add ")
            else str ("new ")) ++ ip ++ ['\n'])) ip e.content) p
      · by_cases hpm : p = m
        · exact Or.inl hpm
        · by_cases hpip : ip = p
          · obtain ⟨rel, hrel, hipj⟩ := extractStep_put_rel d k strip e last last2 ip hstep
            obtain ⟨habs, rcomps, hrne, hres⟩ := hgood e (List.mem_cons_self e rest) rel hrel
            refine Or.inr ⟨rcomps, hrne, ?_⟩
            rw [← hpip, hipj]
            exact resolvePath_pathJoin d rel dcomps rcomps hd hres habs
          · rw [hmid, fsGet_set, if_neg hpip, fsApp, fsGet_set,
              if_neg (fun hh => hpm hh.symm)] at hp
            exact absurd rfl hp
      · exact ih hgood2 last2 _ ev fs2 ev2 h p hmid

theorem extract_same_root_aux (d : Str) (k : ZipKind) (m : Str)
    (entries : List ZipEntry) :
    ∀ (r : Str) (fs : FS) (ev : List Ev) (fs2 : FS) (ev2 : List Ev),
      extract_zip_to_dir d k true m entries (some r) fs ev = .ok fs2 ev2 () →
      ∀ e ∈ entries, ∀ rd : Str, entryRootOf k e = some rd → rd = r := by
  induction entries with
  | nil => intro r fs ev fs2 ev2 _ e he; cases he
  | cons e rest ih =>
    intro r fs ev fs2 ev2 h x hx rd hrd
    rw [extract_cons] at h
    cases hstep : extractStep d k true e (some r) with
    | fail er => rw [hstep] at h; cases h
    | skip =>
      rw [hstep] at h
      rcases List.mem_cons.mp hx with hh | hh
      · rw [hh] at hrd
        rw [extractStep_skip_root d k e (some r) hstep] at hrd
        cases hrd
      · exact ih r fs ev fs2 ev2 h x hh rd hrd
    | put last2 ip =>
      rw [hstep] at h
      obtain ⟨hl2, hall⟩ := extractStep_put_root_some d k e r last2 ip hstep
      rcases List.mem_cons.mp hx with hh | hh
      · rw [hh] at hrd
        exact hall rd hrd
      · rw [hl2] at h
        exact ih r _ ev fs2 ev2 h x hh rd hrd

theorem extract_same_root (d : Str) (k : ZipKind) (m : Str)
    (entries : List ZipEntry) (fs : FS) (ev : List Ev) (fs2 : FS)
    (ev2 : List Ev)
    (h : extract_zip_to_dir d k true m entries none fs ev = .ok fs2 ev2 ()) :
    ∃ r : Str, ∀ e ∈ entries, ∀ rd : Str, entryRootOf k e = some rd → rd = r := by
  induction entries generalizing fs ev with
  | nil => exact ⟨[], fun e he => absurd he (List.not_mem_nil e)⟩
  | cons e rest ih =>
    rw [extract_cons] at h
    cases hstep : extractStep d k true e none with
    | fail er => rw [hstep] at h; cases h
    | skip =>
      rw [hstep] at h
      obtain ⟨r, hr⟩ := ih fs ev h
      refine ⟨r, fun x hx rd hrd => ?_⟩
      rcases List.mem_cons.mp hx with hh | hh
      · rw [hh] at hrd
        rw [extractStep_skip_root d k e none hstep] at hrd
        cases hrd
      · exact hr x hh rd hrd
    | put last2 ip =>
      rw [hstep] at h
      obtain ⟨rd0, hroot, hl2⟩ := extractStep_put_root_none d k e last2 ip hstep
      rw [hl2] at h
      refine ⟨rd0, fun x hx rd hrd => ?_⟩
      rcases List.mem_cons.mp hx with hh | hh
      · rw [hh] at hrd
        rw [hroot] at hrd
        injection hrd with hrd2
        exact hrd2.symm
      · exact extract_same_root_aux d k m rest rd0 _ ev fs2 ev2 h x hh rd hrd

/-- C9: extraction path safety, in its amended form.  (a) An entry whose
raw (pre-decode) normalised name has a `.` or `..` slash-component makes
the extraction fail with an error.  (b) When every extracted entry
computes a relative path that is not absolute and resolves to a non-empty
component list, a successful extraction changes only the manifest file and
paths resolving strictly below the install directory.  (c) With root
stripping on, a successful extraction saw the same root directory on every
extracted entry.  The per-entry proviso in (b) is necessary: the dot check
runs before percent-decoding, so encoded dot segments are not covered by
(a) and can escape — see the counterexample. -/
theorem c9_extraction_path_safety :
    (∀ (d : Str) (k : ZipKind) (strip : Bool) (m : Str)
        (entries : List ZipEntry) (last : Option Str) (fs : FS) (ev : List Ev),
      (∃ e ∈ entries, badDotEntry e = true) →
      ∃ fsx evx er,
        extract_zip_to_dir d k strip m entries last fs ev = .err fsx evx er) ∧
    (∀ (d : Str) (k : ZipKind) (strip : Bool) (m : Str) (dcomps : List Str)
        (entries : List ZipEntry) (last : Option Str) (fs : FS) (ev : List Ev)
        (fs2 : FS) (ev2 : List Ev),
      resolvePath d = some dcomps →
      (∀ e ∈ entries, ∀ rel : Str, entryRelPath k strip e = some rel →
        rel.head? ≠ some '/' ∧
          ∃ rcomps, rcomps ≠ [] ∧ resolvePath rel = some rcomps) →
      extract_zip_to_dir d k strip m entries last fs ev = .ok fs2 ev2 () →
      ∀ p : Str, fsGet fs2 p ≠ fsGet fs p →
        p = m ∨ ∃ rcomps, rcomps ≠ [] ∧ resolvePath p = some (dcomps ++ rcomps)) ∧
    (∀ (d : Str) (k : ZipKind) (m : Str) (entries : List ZipEntry) (fs : FS)
        (ev : List Ev) (fs2 : FS) (ev2 : List Ev),
      extract_zip_to_dir d k true m entries none fs ev = .ok fs2 ev2 () →
      ∃ r : Str, ∀ e ∈ entries, ∀ rd : Str, entryRootOf k e = some rd → rd = r) :=
  ⟨fun d k strip m entries last fs ev hbad =>
      extract_dot_fails d k strip m entries hbad last fs ev,
    fun d k strip m dcomps entries last fs ev fs2 ev2 hd hgood h =>
      extract_frame d k strip m dcomps hd entries hgood last fs ev fs2 ev2 h,
    fun d k m entries fs ev fs2 ev2 h =>
      extract_same_root d k m entries fs ev fs2 ev2 h⟩

/-- C9 counterexample: the dot-component check runs on the raw entry name
before percent-decoding, so the name %2e%2e/x passes it; extraction
succeeds and creates the file /i/../x, which resolves to the single
component x — outside the install directory /i, whose resolution is the
component i. -/
theorem c9_encoded_dot_escapes :
    badDotEntry ⟨str ("%2e%2e/x"), str ("X")⟩ = false ∧
    extract_zip_to_dir (str ("/i")) .zip false (str ("/m"))
        [⟨str ("%2e%2e/x"), str ("X")⟩] none [] [] =
      .ok [(str ("/i/../x"), str ("X")), (str ("/m"), str ("new /i/../x\n"))]
        [] () ∧
    fsGet [(str ("/i/../x"), str ("X")), (str ("/m"), str ("new /i/../x\n"))]
      (str ("/i/../x")) = some (str ("X")) ∧
    resolvePath (str ("/i")) = some [str ("i")] ∧
    resolvePath (str ("/i/../x")) = some [str ("x")] ∧
    ∀ rcomps : List Str, [str ("x")] ≠ [str ("i")] ++ rcomps := by
  refine ⟨by decide, rfl, by decide, by decide, by decide, ?_⟩
  intro rcomps h
  rw [List.singleton_append] at h
  injection h with h1 h2
  exact absurd h1 (by decide)

/-- C9 witness: a bad entry ../x makes extraction fail; extracting
root/a.txt with root stripping succeeds, the one changed non-manifest
path /i/a.txt resolves strictly below /i, and all entries shared one
root. -/
theorem c9_extraction_path_safety_witness :
    (∃ fsx evx er,
      extract_zip_to_dir (str ("/i")) .zip false (str ("/m"))
          [⟨str ("../x"), str ("X")⟩] none [] [] = .err fsx evx er) ∧
    (str ("/i/a.txt") = str ("/m") ∨
      ∃ rcomps, rcomps ≠ [] ∧
        resolvePath (str ("/i/a.txt")) = some ([str ("i")] ++ rcomps)) ∧
    (∃ r : Str, ∀ e ∈ [(⟨str ("root/a.txt"), str ("A")⟩ : ZipEntry)],
      ∀ rd : Str, entryRootOf ZipKind.zip e = some rd → rd = r) := by
  refine ⟨?_, ?_, ?_⟩
  · exact c9_extraction_path_safety.1 (str ("/i")) .zip false (str ("/m"))
      [⟨str ("../x"), str ("X")⟩] none [] [] ⟨_, List.mem_singleton_self _, by decide⟩
  · refine c9_extraction_path_safety.2.1 (str ("/i")) .zip true (str ("/m"))
      [str ("i")] [⟨str ("root/a.txt"), str ("A")⟩] none [] []
      [(str ("/i/a.txt"), str ("A")), (str ("/m"), str ("new /i/a.txt\n"))] []
      (by decide) ?_ rfl (str ("/i/a.txt")) (by decide)
    intro e he rel hrel
    rw [List.mem_singleton] at he
    subst he
    have hcalc : entryRelPath ZipKind.zip true ⟨str ("root/a.txt"), str ("A")⟩ =
        some (str ("a.txt")) := rfl
    rw [hcalc] at hrel
    injection hrel with h2
    subst h2
    exact ⟨by decide, [str ("a.txt")], by decide, by decide⟩
  · exact c9_extraction_path_safety.2.2 (str ("/i")) ZipKind.zip (str ("/m"))
      [⟨str ("root/a.txt"), str ("A")⟩] [] []
      [(str ("/i/a.txt"), str ("A")), (str ("/m"), str ("new /i/a.txt\n"))] [] rfl

/-! ## The install engine (install_payload, src/install.rs) -/

/-- The sub-paths `end_install` copies into the finalized manifest: every
line after the cache-basename header that starts with "new " or "add ",
with that marker stripped. -/
def manifestKeptPaths (content : Str) : List Str :=
  match linesOf content with
  | [] => []
  | _ :: rest => rest.filterMap (fun l =>
      if l = [] then none
      else
        match dropStart (str ("new ")) l with
        | some p => some p
        | none => dropStart (str ("add ")) l)

/-- Model of `end_install` (src/install.rs): read the `current` manifest,
write the kept sub-paths one per line to `<installed>.tmp`, remove
`current`, and rename the tmp file onto the finalized manifest path.
`none` when `current` is unreadable. -/
def end_install (installed_manifest_path current_install_path : Str)
    (fs : FS) : Option FS :=
  match fsGet fs current_install_path with
  | none => none
  | some content =>
    let out := (manifestKeptPaths content).foldr (fun l acc => l ++ '\n' :: acc) []
    let tmp_path := installed_manifest_path ++ str (".tmp")
    let fs1 := fsSet fs tmp_path out
    let fs2 := fsRemove fs1 current_install_path
    some (fsSet (fsRemove fs2 tmp_path) installed_manifest_path out)

/-- The cab-prefetch loop of `install_payload`: each non-empty line of the
cabs block is parsed as a lock-file payload and fetched into the cache. -/
def fetchCabs (download : Str → Option Str) (hashOf : Str → Sha256)
    (cache_dir : Str) : List Str → FS → List Ev → Out Unit
  | [], fs, ev => .ok fs ev ()
  | line :: rest, fs, ev =>
    if line = [] then fetchCabs download hashOf cache_dir rest fs ev
    else
      match parse_lock_file_payload line with
      | .error e => .err fs ev (.lockParse e)
      | .ok parsed =>
        (fetch_payload download hashOf parsed.sha256 parsed.url_decoded
            (cache_entry_path cache_dir parsed.sha256
              (basename_from_url parsed.url_decoded)) fs ev).bind
          fun fs1 ev1 _ => fetchCabs download hashOf cache_dir rest fs1 ev1

/-- The kind dispatch of `install_payload` after the manifest header is
written: Vsix and Zip archives are opened from the cache (`parseZip`
stands for the zip crate) and extracted; Msi is skipped with a warning on
this non-Windows build; Cab is the unreachable branch, modelled as a
distinguished error. -/
def extractPhase (parseZip : Str → Option (List ZipEntry)) :
    LockFileUrlKind → Str → Str → Bool → Str → FS → List Ev → Out Unit
  | .vsix, cache_path, install_dir, strip_root_dir, manifest_path, fs, ev =>
    (match fsGet fs cache_path with
    | none => .err fs ev .zipOpenFailed
    | some content =>
      match parseZip content with
      | none => .err fs ev .zipOpenFailed
      | some entries =>
        (extract_zip_to_dir install_dir .vsix strip_root_dir manifest_path
            entries none fs ev).bind
          fun f e _ => .ok f (e ++ [.extracted]) ())
  | .zip, cache_path, install_dir, strip_root_dir, manifest_path, fs, ev =>
    (match fsGet fs cache_path with
    | none => .err fs ev .zipOpenFailed
    | some content =>
      match parseZip content with
      | none => .err fs ev .zipOpenFailed
      | some entries =>
        (extract_zip_to_dir install_dir .zip strip_root_dir manifest_path
            entries none fs ev).bind
          fun f e _ => .ok f (e ++ [.extracted]) ())
  | .msi, _, _, _, _, fs, ev => .ok fs ev ()
  | .cab, _, _, _, _, fs, ev => .err fs ev .cabUnreachable

/-- The finalized-manifest path `<install_dir>/install/<cache-basename>.files`. -/
def installed_manifest_path_of (install_dir : Str) (sha256 : Sha256)
    (url_decoded : Str) : Str :=
  pathJoin (pathJoin install_dir (str ("install")))
    (cacheBasename sha256 (basename_from_url url_decoded) ++ str (".files"))

/-- The working-manifest path `<install_dir>/install/current`. -/
def current_install_path_of (install_dir : Str) : Str :=
  pathJoin (pathJoin install_dir (str ("install"))) (str ("current"))

/-- Model of `install_payload` (src/install.rs): URL-kind resolution, the
idempotence gate on the finalized manifest, cab prefetch, the main fetch,
crash recovery, the manifest header write, extraction, and manifest
finalization.  Advisory locks are no-ops in this single-process model. -/
def install_payload (download : Str → Option Str) (hashOf : Str → Sha256)
    (parseZip : Str → Option (List ZipEntry)) (install_dir cache_dir : Str)
    (url_decoded : Str) (sha256 : Sha256) (strip_root_dir : Bool)
    (cabs : Str) (fs : FS) (ev : List Ev) : Out Unit :=
  match get_lock_file_url_kind url_decoded with
  | none => .err fs ev .unknownUrlKind
  | some url_kind =>
    let cache_path := cache_entry_path cache_dir sha256 (basename_from_url url_decoded)
    let installed_manifest_path := installed_manifest_path_of install_dir sha256 url_decoded
    if (fsGet fs installed_manifest_path).isSome then .ok fs ev ()
    else
      (fetchCabs download hashOf cache_dir (linesOf cabs) fs ev).bind fun fs1 ev1 _ =>
      (fetch_payload download hashOf sha256 url_decoded cache_path fs1 ev1).bind
        fun fs2 ev2 _ =>
      let current := current_install_path_of install_dir
      let fs3 := start_install current fs2
      let fs4 := fsSet fs3 current
        (cacheBasename sha256 (basename_from_url url_decoded) ++ ['\n'])
      (extractPhase parseZip url_kind cache_path install_dir strip_root_dir
          current fs4 ev2).bind fun fs5 ev5 _ =>
      match end_install installed_manifest_path current fs5 with
      | none => .err fs5 ev5 .readCurrentFailed
      | some fs6 => .ok fs6 ev5 ()

theorem end_install_manifest (imp cip : Str) (fs fs6 : FS)
    (h : end_install imp cip fs = some fs6) :
    (fsGet fs6 imp).isSome := by
  simp only [end_install] at h
  cases hc : fsGet fs cip with
  | none => rw [hc] at h; cases h
  | some content =>
    rw [hc] at h
    simp only [] at h
    injection h with h1
    rw [← h1, fsGet_set, if_pos rfl]
    rfl

/-- C3: install idempotence.  For a URL of a recognized kind: (a) when the
finalized manifest `<cache-basename>.files` already exists under
`<install_dir>/install/`, install_payload returns success at once with the
filesystem and event log unchanged — no cab fetch, no payload fetch, no
extraction; (b) any successful run leaves that finalized manifest in
place; hence (c) a second run after a successful one is exactly such a
no-op, so the same payload is fetched and extracted at most once. -/
theorem c3_install_idempotence (download : Str → Option Str)
    (hashOf : Str → Sha256) (parseZip : Str → Option (List ZipEntry))
    (install_dir cache_dir url_decoded : Str) (sha256 : Sha256)
    (strip_root_dir : Bool) (cabs : Str) :
    (∀ (fs : FS) (ev : List Ev),
      (∃ k, get_lock_file_url_kind url_decoded = some k) →
      (fsGet fs (installed_manifest_path_of install_dir sha256 url_decoded)).isSome
        = true →
      install_payload download hashOf parseZip install_dir cache_dir
        url_decoded sha256 strip_root_dir cabs fs ev = .ok fs ev ()) ∧
    (∀ (fs : FS) (ev : List Ev) (fs2 : FS) (ev2 : List Ev),
      install_payload download hashOf parseZip install_dir cache_dir
        url_decoded sha256 strip_root_dir cabs fs ev = .ok fs2 ev2 () →
      (fsGet fs2 (installed_manifest_path_of install_dir sha256 url_decoded)).isSome
        = true) ∧
    (∀ (fs : FS) (ev : List Ev) (fs2 : FS) (ev2 : List Ev),
      install_payload download hashOf parseZip install_dir cache_dir
        url_decoded sha256 strip_root_dir cabs fs ev = .ok fs2 ev2 () →
      install_payload download hashOf parseZip install_dir cache_dir
        url_decoded sha256 strip_root_dir cabs fs2 ev2 = .ok fs2 ev2 ()) := by
  have hA : ∀ (fs : FS) (ev : List Ev),
      (∃ k, get_lock_file_url_kind url_decoded = some k) →
      (fsGet fs (installed_manifest_path_of install_dir sha256 url_decoded)).isSome
        = true →
      install_payload download hashOf parseZip install_dir cache_dir
        url_decoded sha256 strip_root_dir cabs fs ev = .ok fs ev () := by
    intro fs ev hk hm
    obtain ⟨k, hk⟩ := hk
    simp only [install_payload, hk]
    rw [if_pos hm]
  have hB : ∀ (fs : FS) (ev : List Ev) (fs2 : FS) (ev2 : List Ev),
      install_payload download hashOf parseZip install_dir cache_dir
        url_decoded sha256 strip_root_dir cabs fs ev = .ok fs2 ev2 () →
      (fsGet fs2 (installed_manifest_path_of install_dir sha256 url_decoded)).isSome
        = true := by
    intro fs ev fs2 ev2 h
    cases hk : get_lock_file_url_kind url_decoded with
    | none => simp only [install_payload, hk] at h; cases h
    | some k =>
      simp only [install_payload, hk] at h
      by_cases hm : (fsGet fs
          (installed_manifest_path_of install_dir sha256 url_decoded)).isSome = true
      · rw [if_pos hm] at h
        injection h with h1 h2
        rw [← h1]
        exact hm
      · rw [if_neg hm] at h
        obtain ⟨fsa, eva, a, hca, h2⟩ := Out.bind_ok _ _ _ _ _ h
        obtain ⟨fsb, evb, b, hpb, h3⟩ := Out.bind_ok _ _ _ _ _ h2
        obtain ⟨fsc, evc, c, hec, h4⟩ := Out.bind_ok _ _ _ _ _ h3
        cases he : end_install
            (installed_manifest_path_of install_dir sha256 url_decoded)
            (current_install_path_of install_dir) fsc with
        | none => rw [he] at h4; cases h4
        | some fs6 =>
          rw [he] at h4
          injection h4 with h5 h6
          rw [← h5]
          exact end_install_manifest _ _ _ _ he
  refine ⟨hA, hB, ?_⟩
  intro fs ev fs2 ev2 h
  have hk : ∃ k, get_lock_file_url_kind url_decoded = some k := by
    cases hk2 : get_lock_file_url_kind url_decoded with
    | none => simp only [install_payload, hk2] at h; cases h
    | some k => exact ⟨k, rfl⟩
  exact hA fs2 ev2 hk (hB fs ev fs2 ev2 h)

/-- C3 witness: with the finalized manifest present, a run is a no-op on a
concrete state; after a concrete successful install of a one-file vsix,
the immediate second run is exactly that no-op. -/
theorem c3_install_idempotence_witness :
    install_payload (fun _ => some (str ("Z"))) (fun _ => List.replicate 32 0)
        (fun _ => some [⟨str ("Contents/f.txt"), str ("F")⟩])
        (str ("/i")) (str ("/c")) (str ("https://x/a.vsix"))
        (List.replicate 32 0) false (str (""))
        [(installed_manifest_path_of (str ("/i")) (List.replicate 32 0)
            (str ("https://x/a.vsix")), str ("done"))] [] =
      .ok [(installed_manifest_path_of (str ("/i")) (List.replicate 32 0)
            (str ("https://x/a.vsix")), str ("done"))] [] () ∧
    install_payload (fun _ => some (str ("Z"))) (fun _ => List.replicate 32 0)
        (fun _ => some [⟨str ("Contents/f.txt"), str ("F")⟩])
        (str ("/i")) (str ("/c")) (str ("https://x/a.vsix"))
        (List.replicate 32 0) false (str (""))
        [(installed_manifest_path_of (str ("/i")) (List.replicate 32 0)
            (str ("https://x/a.vsix")), str ("/i/f.txt\n")),
         (str ("/i/f.txt"), str ("F")),
         (cache_entry_path (str ("/c")) (List.replicate 32 0) (str ("a.vsix")),
           str ("Z"))]
        [.fetched (str ("https://x/a.vsix")), .extracted] =
      .ok [(installed_manifest_path_of (str ("/i")) (List.replicate 32 0)
            (str ("https://x/a.vsix")), str ("/i/f.txt\n")),
         (str ("/i/f.txt"), str ("F")),
         (cache_entry_path (str ("/c")) (List.replicate 32 0) (str ("a.vsix")),
           str ("Z"))]
        [.fetched (str ("https://x/a.vsix")), .extracted] () := by
  constructor
  · exact (c3_install_idempotence (fun _ => some (str ("Z")))
      (fun _ => List.replicate 32 0)
      (fun _ => some [⟨str ("Contents/f.txt"), str ("F")⟩])
      (str ("/i")) (str ("/c")) (str ("https://x/a.vsix"))
      (List.replicate 32 0) false (str (""))).1
      [(installed_manifest_path_of (str ("/i")) (List.replicate 32 0)
          (str ("https://x/a.vsix")), str ("done"))] []
      ⟨.vsix, rfl⟩ (by decide)
  · exact (c3_install_idempotence (fun _ => some (str ("Z")))
      (fun _ => List.replicate 32 0)
      (fun _ => some [⟨str ("Contents/f.txt"), str ("F")⟩])
      (str ("/i")) (str ("/c")) (str ("https://x/a.vsix"))
      (List.replicate 32 0) false (str (""))).2.2 [] [] _ _ rfl

end Msvcup
